import Mathlib

/-!
# SilentDragonLite `settings.cpp`: amounts, addresses and payment URIs

A shallow embedding of the pure parts of `src/settings.cpp` together with the
properties of its natural-language specification.

Modelling conventions.

* A `QString` is the list of its characters (one `Char` per `QChar`).
* `qint64` / `int` values are integers; a conversion to a narrower or signed
  machine type is an explicit wrap-around (`wrapInt64`, `wrapInt32`).
* The Qt library calls used by the source (`QString::number`, `repeated`,
  `split`, `toULongLong`, `QRegExp::exactMatch`, ...) are modelled by
  executable functions following the Qt 5 behaviour of each call.
-/

namespace SilentDragonLite

/-- The text type of the program: a `QString`, as the list of its characters. -/
abbrev QString := List Char

/-! ## Machine integers -/

/-- Conversion of an integer to `qint64` (two's complement wrap-around). -/
def wrapInt64 (x : Int) : Int := (x + 2 ^ 63) % 2 ^ 64 - 2 ^ 63

/-- Conversion of an integer to the 32-bit `int` (two's complement wrap-around). -/
def wrapInt32 (x : Int) : Int := (x + 2 ^ 31) % 2 ^ 32 - 2 ^ 31

/-! ## The Qt string operations used by the source -/

namespace QString

/-- `QChar::isSpace`: the ASCII white space, NEL, NBSP and the Unicode
separator characters. -/
def isSpace (c : Char) : Bool :=
  c.toNat = 0x20 || (0x09 ≤ c.toNat && c.toNat ≤ 0x0d) || c.toNat = 0x85 || c.toNat = 0xa0 ||
  c.toNat = 0x1680 || (0x2000 ≤ c.toNat && c.toNat ≤ 0x200a) || c.toNat = 0x2028 ||
  c.toNat = 0x2029 || c.toNat = 0x202f || c.toNat = 0x205f || c.toNat = 0x3000

/-- A decimal digit `0`..`9`. -/
def isDigit (c : Char) : Bool := 48 ≤ c.toNat && c.toNat ≤ 57

/-- The value of a string of decimal digits, most significant digit first. -/
def digitsValue (s : QString) : Nat :=
  s.foldl (fun acc c => acc * 10 + (c.toNat - 48)) 0

/-- `QString::repeated(times)`: the string repeated `times` times, the empty
string when `times` is zero or negative. -/
def repeated (s : QString) (times : Int) : QString :=
  (List.replicate times.toNat s).flatten

/-- `QString::length()`. -/
def length (s : QString) : Int := (List.length s : Int)

/-- The text left after white space is removed from both ends. -/
def trimmed (s : QString) : QString :=
  ((s.dropWhile isSpace).reverse.dropWhile isSpace).reverse

/-- The text without its leading `+` sign, when it has one. -/
def dropPlus : QString → QString
  | [] => []
  | c :: r => if c = '+' then r else c :: r

/-- `QString::toULongLong()` in base 10: white space at both ends is skipped,
one leading `+` is accepted, and the rest has to be a non-empty run of decimal
digits whose value fits 64 unsigned bits; every other text converts to `0`
(the failure is only visible through the `ok` pointer, which the source never
passes). -/
def toULongLong (s : QString) : Nat :=
  let body := dropPlus (trimmed s)
  if body.isEmpty then 0
  else if !body.all isDigit then 0
  else if 2 ^ 64 ≤ digitsValue body then 0
  else digitsValue body

/-- `QString::number(int)`: the decimal numeral, with a leading `-` for a
negative number. -/
def number (n : Int) : QString :=
  if n < 0 then '-' :: Nat.toDigits 10 n.natAbs else Nat.toDigits 10 n.toNat

/-- `QString::split(sep)` for a one-character separator, empty parts kept: the
result always has at least one part. -/
def split (sep : Char) : QString → List QString
  | [] => [[]]
  | c :: cs =>
    if c = sep then [] :: split sep cs
    else
      match split sep cs with
      | [] => [[c]]
      | p :: ps => (c :: p) :: ps

/-- `QString::startsWith(s)`, case sensitive. -/
def startsWith : QString → QString → Bool
  | _, [] => true
  | [], _ :: _ => false
  | c :: cs, p :: ps => c == p && startsWith cs ps

/-- `QString::right(n)`: the `n` rightmost characters, the whole string when
`n` is negative or not below the size. -/
def right (s : QString) (n : Int) : QString :=
  if n < 0 ∨ QString.length s ≤ n then s else s.drop (QString.length s - n).toNat

/-- An ASCII letter or digit: what the class `[a-zA-Z0-9]` accepts, and what
`[a-z0-9]` accepts under `Qt::CaseInsensitive`, the case folding being taken on
the ASCII letters (see `toLowerChar`). -/
def isAlnum (c : Char) : Bool :=
  (48 ≤ c.toNat && c.toNat ≤ 57) || (97 ≤ c.toNat && c.toNat ≤ 122) ||
    (65 ≤ c.toNat && c.toNat ≤ 90)

/-- The lower-case form of a character, on the ASCII letters. The characters
outside ASCII that Qt lower-cases never become one of the ASCII letters the
source compares with, except U+212A KELVIN SIGN (lower case `k`), which is left
out of the model. -/
def toLowerChar (c : Char) : Char :=
  if 65 ≤ c.toNat ∧ c.toNat ≤ 90 then Char.ofNat (c.toNat + 32) else c

/-- `QString::toLower()`. -/
def toLower (s : QString) : QString := s.map toLowerChar

/-- `QRegExp("^" + p + "[a-z0-9]{n}$", Qt::CaseInsensitive).exactMatch(addr)`
for a literal `p` of lower-case letters: the whole of `addr` is `p`, compared
without regard to case, followed by exactly `n` letters or digits.
`exactMatch` anchors at both ends whether or not the pattern ends in `$`. -/
def exactMatchLiteralAlnum (p : QString) (n : Nat) (addr : QString) : Bool :=
  toLower (addr.take (List.length p)) == p && List.length (addr.drop (List.length p)) == n &&
    (addr.drop (List.length p)).all isAlnum

/-- `QRegExp("([a-zA-Z0-9]+)").indexIn(s)` followed by `cap(1)`: the search is
not anchored, it finds the first letter or digit anywhere in `s` and captures
the longest run from there; `none` stands for the result `-1`. -/
def firstAlnumRun (s : QString) : Option QString :=
  match s.dropWhile (fun c => !isAlnum c) with
  | [] => none
  | c :: cs => some ((c :: cs).takeWhile isAlnum)

end QString

open QString

/-! ## Amount formatting (`settings.cpp`, lines 191-222) -/

namespace Settings

/-- Modelled from the spec: `Settings::getNumberOfDecimalPlaces`, declared in
`settings.h`, is the fixed number of decimal places, 8. -/
def getNumberOfDecimalPlaces : Int := 8

/-- The local `divider` of both amount functions:
`QString("1" + QString("0").repeated(places)).toULongLong()` stored in a `qint64`. -/
def divider : Int :=
  wrapInt64 (toULongLong (['1'] ++ repeated ['0'] getNumberOfDecimalPlaces))

/-- `Settings::getDecimalString(qint64 amt)`. -/
def getDecimalString (amt : Int) : QString :=
  let places := getNumberOfDecimalPlaces
  let wholePart := wrapInt32 (Int.tdiv amt divider)
  let decimalPart := wrapInt32 (Int.tmod amt divider)
  let r := number wholePart
  if decimalPart > 0 then
    let decimalPartStr := number decimalPart
    let leadingZeros := repeated ['0'] (places - QString.length decimalPartStr)
    r ++ ['.'] ++ leadingZeros ++ decimalPartStr
  else r

/-- `Settings::getAmountFromUserDecimalStr(QString amt)`. The products and sums
are computed on `qulonglong` and stored in the `qint64` variable `r`. -/
def getAmountFromUserDecimalStr (amt : QString) : Int :=
  let places := getNumberOfDecimalPlaces
  let amtParts := split '.' amt
  let r := wrapInt64 ((toULongLong (amtParts.getD 0 []) : Int) * divider)
  if amtParts.length = 2 then
    let trailingZeros := repeated ['0'] (places - QString.length (amtParts.getD 1 []))
    wrapInt64 (r + (toULongLong (amtParts.getD 1 [] ++ trailingZeros) : Int))
  else r

/-! ## Address classification (`settings.cpp`, lines 39-74 and 269-277) -/

/-- `Settings::isValidAddress(QString addr)`; the four expressions are
`zcexp`, `texp`, `ztsexp` and `zsexp`, tried in the order of the source. -/
def isValidAddress (addr : QString) : Bool :=
  exactMatchLiteralAlnum ['z'] 94 addr || exactMatchLiteralAlnum ['t'] 34 addr ||
    exactMatchLiteralAlnum "ztestsapling".toList 76 addr || exactMatchLiteralAlnum ['z'] 77 addr

end Settings

/-- The fields of the `Settings` singleton read by the modelled functions. -/
structure Settings where
  /-- Testnet flag. -/
  _isTestnet : Bool
  /-- Sync in progress. -/
  _isSyncing : Bool
  /-- Version of the node. -/
  _zcashdVersion : Int
  /-- Last known block height. -/
  _blockNumber : Int
deriving DecidableEq, Repr

namespace Settings

/-- `Settings::isTestnet()`. -/
def isTestnet (self : Settings) : Bool := self._isTestnet

/-- `Settings::setTestnet(bool)`. -/
def setTestnet (self : Settings) (isTestnet : Bool) : Settings :=
  { self with _isTestnet := isTestnet }

/-- `Settings::isSaplingAddress(QString addr)`. -/
def isSaplingAddress (self : Settings) (addr : QString) : Bool :=
  if !isValidAddress addr then false
  else (self.isTestnet && startsWith addr "ztestsapling".toList) ||
    (!self.isTestnet && startsWith addr "zs".toList)

/-- `Settings::isZAddress(QString addr)`. -/
def isZAddress (_self : Settings) (addr : QString) : Bool :=
  if !isValidAddress addr then false else startsWith addr "z".toList

/-- `Settings::isSproutAddress(QString addr)`. -/
def isSproutAddress (self : Settings) (addr : QString) : Bool :=
  if !isValidAddress addr then false
  else self.isZAddress addr && !self.isSaplingAddress addr

/-- `Settings::isTAddress(QString addr)`. -/
def isTAddress (_self : Settings) (addr : QString) : Bool :=
  if !isValidAddress addr then false else startsWith addr "t".toList

/-- `Settings::getBlockNumber()`. -/
def getBlockNumber (self : Settings) : Int := self._blockNumber

/-- `Settings::setBlockNumber(int number)`. -/
def setBlockNumber (self : Settings) (number : Int) : Settings :=
  { self with _blockNumber := number }

/-- `Settings::isSaplingActive()`. -/
def isSaplingActive (self : Settings) : Bool :=
  (self.isTestnet && decide (self.getBlockNumber > 280000)) ||
    (!self.isTestnet && decide (self.getBlockNumber > 419200))

/-- `Settings::getDonationAddr()`; the singleton it reads is the argument. -/
def getDonationAddr (self : Settings) : QString :=
  if self.isTestnet then
    "ztestsapling1wn6889vznyu42wzmkakl2effhllhpe4azhu696edg2x6me4kfsnmqwpglaxzs7tmqsq7kudemp5".toList
  else
    "zs1gv64eu0v2wx7raxqxlmj354y9ycznwaau9kduljzczxztvs4qcl00kn2sjxtejvrxnkucw5xx9u".toList

/-- `Settings::getDefaultServer()`. -/
def getDefaultServer : QString := "https://lightd-main.zecwallet.co:443/".toList

end Settings

/-- Modelled from the spec: the `Config` record declared in `settings.h`, which
holds the server URL. -/
structure Config where
  /-- Server URL. -/
  server : QString
deriving DecidableEq, Repr

namespace Settings

/-- `Settings::getSettings()`. The argument is the entry `connection/server` of
the `QSettings` store, `none` when it is unset; `QVariant::toString()` gives the
empty string for an unset entry, and `QString::trimmed()` removes the white
space at both ends. -/
def getSettings (stored : Option QString) : Config :=
  let server := stored.getD []
  if (trimmed server).isEmpty then { server := getDefaultServer } else { server := server }

end Settings

/-! ## Payment URIs (`settings.cpp`, lines 285-332) -/

/-- Modelled from the spec: the `PaymentURI` record declared in `settings.h`,
address, amount, memo and error text, all empty when default-constructed. -/
structure PaymentURI where
  /-- Address. -/
  addr : QString := []
  /-- Amount, as the text of the URI. -/
  amt : QString := []
  /-- Memo. -/
  memo : QString := []
  /-- Error text, empty when there is none. -/
  error : QString := []
deriving DecidableEq, Repr

namespace Settings

/-- The loop `for (QString arg: args)` of `Settings::parseURI`: one iteration
per `&`-separated segment, returning at the first segment that does not split
in two on `=`. `dec` is the memo decoding `QUrl::fromPercentEncoding(v.toUtf8())`. -/
def parseArgs (dec : QString → QString) (ans : PaymentURI) : List QString → PaymentURI
  | [] => ans
  | arg :: args =>
    let kv := split '=' arg
    if kv.length ≠ 2 then { ans with error := "No value argument was seen".toList }
    else if toLower (kv.getD 0 []) = "amt".toList ∨ toLower (kv.getD 0 []) = "amount".toList then
      parseArgs dec { ans with amt := kv.getD 1 [] } args
    else if toLower (kv.getD 0 []) = "memo".toList ∨ toLower (kv.getD 0 []) = "message".toList ∨
        toLower (kv.getD 0 []) = "msg".toList then
      parseArgs dec { ans with memo := dec (kv.getD 1 []) } args
    else parseArgs dec ans args

/-- `Settings::parseURI(QString uri)`. The percent-decoding of the memo,
`QUrl::fromPercentEncoding(v.toUtf8())`, is Qt library code and is taken as the
parameter `dec`. -/
def parseURI (dec : QString → QString) (uri : QString) : PaymentURI :=
  let ans : PaymentURI := {}
  if !startsWith uri "zcash:".toList then { ans with error := "Not a zcash payment URI".toList }
  else
    let uri := right uri (QString.length uri - QString.length "zcash:".toList)
    match firstAlnumRun uri with
    | none => { ans with error := "Couldn't find an address".toList }
    | some a =>
      let ans := { ans with addr := a }
      if !isValidAddress ans.addr then
        { ans with error := "Could not understand address".toList }
      else
        let uri := right uri (QString.length uri - QString.length ans.addr)
        if !uri.isEmpty then
          let uri := right uri (QString.length uri - 1)
          parseArgs dec ans (split '&' uri)
        else ans

end Settings

open Settings

/-! ## Notions of the specification -/

/-- The decimal numeral of a natural number, as the standard library prints it. -/
def decimalNumeral (n : Nat) : List Char := (Nat.repr n).toList

/-- A part of an amount text that Qt cannot read as a number whatever the white
space and sign around it: it is empty, or holds a character that is neither a
decimal digit, nor white space, nor `+`. -/
def Unreadable (s : List Char) : Prop :=
  s = [] ∨ ∃ c ∈ s, isDigit c = false ∧ isSpace c = false ∧ c ≠ '+'

/-- The word `k` spells the lower-case word `t` in some mix of upper and lower
case: letter by letter, it has the letter of `t` or its capital. -/
def IsCaseSpelling (t k : List Char) : Prop :=
  List.Forall₂ (fun a c => c = a ∨ c = a.toUpper) t k

/-- The four shapes of an address: `t` in either case with 35 characters in all,
`z` in either case with 78 or with 95 characters, and `ztestsapling` in any
case with 88 characters. -/
def HasAddressShape (s : List Char) : Prop :=
  (IsCaseSpelling ['t'] (s.take 1) ∧ s.length = 35) ∨
  (IsCaseSpelling ['z'] (s.take 1) ∧ s.length = 78) ∨
  (IsCaseSpelling ['z'] (s.take 1) ∧ s.length = 95) ∨
  (IsCaseSpelling "ztestsapling".toList (s.take 12) ∧ s.length = 88)

/-- The payment URI of the documented format `zcash:<address>[?seg1&seg2...]`
for an address and a list of query segments; without segments there is no
query part. -/
def uriOf (A : List Char) (segs : List (List Char)) : List Char :=
  "zcash:".toList ++ A ++ (if segs = [] then [] else "?".toList ++ "&".toList.intercalate segs)

/-- A word of lower-case ASCII letters. -/
def LowerWord (p : List Char) : Prop := ∀ a ∈ p, 97 ≤ a.toNat ∧ a.toNat ≤ 122

/-! ## Lemmas on the string operations -/

section StringLemmas

theorem foldl_digits (t : List Char) (a : Nat) :
    t.foldl (fun acc c => acc * 10 + (c.toNat - 48)) a = a * 10 ^ t.length + digitsValue t := by
  induction t generalizing a with
  | nil => simp [digitsValue]
  | cons c cs ih =>
    simp only [List.foldl_cons, List.length_cons, digitsValue]
    rw [ih, ih (0 * 10 + _)]
    ring

theorem digitsValue_append (s t : List Char) :
    digitsValue (s ++ t) = digitsValue s * 10 ^ t.length + digitsValue t := by
  unfold digitsValue
  rw [List.foldl_append, foldl_digits]
  rfl

theorem digitsValue_zeros (k : Nat) : digitsValue (List.replicate k '0') = 0 := by
  induction k with
  | zero => rfl
  | succ k ih =>
    rw [List.replicate_succ]
    have h := digitsValue_append ['0'] (List.replicate k '0')
    simp only [List.singleton_append] at h
    rw [h, ih]
    simp [digitsValue]

theorem repeated_zero_eq (k : Int) : repeated ['0'] k = List.replicate k.toNat '0' := by
  simp [repeated]

theorem isDigit_not_space {c : Char} (h : isDigit c = true) : isSpace c = false := by
  simp only [isDigit, Bool.and_eq_true, decide_eq_true_eq] at h
  simp only [isSpace, Bool.or_eq_false_iff, Bool.and_eq_false_iff, decide_eq_false_iff_not]
  omega

theorem isDigit_ne_plus {c : Char} (h : isDigit c = true) : c ≠ '+' := by
  rintro rfl
  simp [isDigit] at h

theorem isDigit_ne_dot {c : Char} (h : isDigit c = true) : c ≠ '.' := by
  rintro rfl
  simp [isDigit] at h

theorem digitChar_spec (d : Nat) (h : d < 10) :
    isDigit (Nat.digitChar d) = true ∧ (Nat.digitChar d).toNat - 48 = d := by
  interval_cases d <;> decide

theorem toDigitsCore_acc (f n : Nat) (acc : List Char) :
    Nat.toDigitsCore 10 f n acc = Nat.toDigitsCore 10 f n [] ++ acc := by
  induction f generalizing n acc with
  | zero => simp [Nat.toDigitsCore]
  | succ f ih =>
    simp only [Nat.toDigitsCore]
    split
    · simp
    · rw [ih (n / 10) (_ :: acc), ih (n / 10) [_]]
      simp

theorem toDigitsCore_spec (f n : Nat) (h : n < f) :
    (∀ c ∈ Nat.toDigitsCore 10 f n [], isDigit c = true) ∧
      digitsValue (Nat.toDigitsCore 10 f n []) = n ∧ Nat.toDigitsCore 10 f n [] ≠ [] := by
  induction f generalizing n with
  | zero => omega
  | succ f ih =>
    have hd := digitChar_spec (n % 10) (Nat.mod_lt _ (by decide))
    simp only [Nat.toDigitsCore]
    split
    · rename_i h0
      refine ⟨?_, ?_, by simp⟩
      · intro c hc
        simp only [List.mem_singleton] at hc
        rw [hc]; exact hd.1
      · simp only [digitsValue, List.foldl_cons, List.foldl_nil]
        rw [hd.2]
        omega
    · rename_i h0
      rw [toDigitsCore_acc]
      obtain ⟨h1, h2, h3⟩ := ih (n / 10) (by omega)
      refine ⟨?_, ?_, by simp⟩
      · intro c hc
        rcases List.mem_append.1 hc with hc | hc
        · exact h1 c hc
        · simp only [List.mem_singleton] at hc
          rw [hc]; exact hd.1
      · rw [digitsValue_append, h2]
        simp only [digitsValue, List.foldl_cons, List.foldl_nil, List.length_singleton]
        rw [hd.2]
        omega

theorem toDigits_isDigit (n : Nat) : ∀ c ∈ Nat.toDigits 10 n, isDigit c = true :=
  (toDigitsCore_spec (n + 1) n (Nat.lt_succ_self n)).1

theorem toDigits_value (n : Nat) : digitsValue (Nat.toDigits 10 n) = n :=
  (toDigitsCore_spec (n + 1) n (Nat.lt_succ_self n)).2.1

theorem toDigits_ne_nil (n : Nat) : Nat.toDigits 10 n ≠ [] :=
  (toDigitsCore_spec (n + 1) n (Nat.lt_succ_self n)).2.2

theorem toDigits_length_le (n : Nat) (h : n < 10 ^ 8) : (Nat.toDigits 10 n).length ≤ 8 :=
  Nat.toDigitsCore_length 10 (by decide) (n + 1) n 8 h (by decide)

theorem dropWhile_space_digits (s : List Char) (hd : ∀ c ∈ s, isDigit c = true) :
    s.dropWhile isSpace = s := by
  cases s with
  | nil => rfl
  | cons c cs =>
    rw [List.dropWhile_cons_of_neg]
    rw [isDigit_not_space (hd c (by simp))]
    simp

theorem trimmed_digits (s : List Char) (hd : ∀ c ∈ s, isDigit c = true) : trimmed s = s := by
  unfold trimmed
  rw [dropWhile_space_digits s hd, dropWhile_space_digits s.reverse, List.reverse_reverse]
  intro c hc
  exact hd c (List.mem_reverse.1 hc)

theorem dropPlus_digits (s : List Char) (hd : ∀ c ∈ s, isDigit c = true) : dropPlus s = s := by
  cases s with
  | nil => rfl
  | cons c cs =>
    simp only [dropPlus]
    rw [if_neg (isDigit_ne_plus (hd c (by simp)))]

theorem toULongLong_digits (s : List Char) (hne : s ≠ []) (hd : ∀ c ∈ s, isDigit c = true)
    (hv : digitsValue s < 2 ^ 64) : toULongLong s = digitsValue s := by
  unfold toULongLong
  simp only [trimmed_digits s hd, dropPlus_digits s hd]
  have h1 : s.isEmpty = false := by
    cases s with
    | nil => exact absurd rfl hne
    | cons c cs => rfl
  have h2 : s.all isDigit = true := List.all_eq_true.2 hd
  rw [h1, h2]
  simp only [Bool.false_eq_true, if_false, Bool.not_true]
  rw [if_neg (by omega)]

theorem split_no_sep (sep : Char) (s : List Char) (h : sep ∉ s) : split sep s = [s] := by
  induction s with
  | nil => rfl
  | cons c cs ih =>
    have hc : c ≠ sep := fun e => h (by simp [e])
    have hcs : sep ∉ cs := fun e => h (by simp [e])
    simp only [split, if_neg hc, ih hcs]

theorem split_append_sep (sep : Char) (w f : List Char) (h : sep ∉ w) :
    split sep (w ++ sep :: f) = w :: split sep f := by
  induction w with
  | nil => simp [split]
  | cons c cs ih =>
    have hc : c ≠ sep := fun e => h (by simp [e])
    have hcs : sep ∉ cs := fun e => h (by simp [e])
    rw [List.cons_append]
    simp only [split, if_neg hc]
    rw [ih hcs]

theorem digits_no_dot (s : List Char) (hd : ∀ c ∈ s, isDigit c = true) : '.' ∉ s :=
  fun h => isDigit_ne_dot (hd _ h) rfl

theorem divider_eq : divider = 100000000 := by decide

theorem digitsValue_lt (s : List Char) (hd : ∀ c ∈ s, isDigit c = true) :
    digitsValue s < 10 ^ s.length := by
  induction s using List.reverseRecOn with
  | nil => simp [digitsValue]
  | append_singleton cs c ih =>
    have hc : isDigit c = true := hd c (by simp)
    simp only [isDigit, Bool.and_eq_true, decide_eq_true_eq] at hc
    have h1 := ih (fun x hx => hd x (by simp [hx]))
    rw [digitsValue_append]
    have h2 : digitsValue [c] = c.toNat - 48 := by simp [digitsValue]
    rw [h2]
    simp only [List.length_singleton, List.length_append, pow_succ, pow_zero, one_mul]
    omega

theorem wrapInt32_of_fits (x : Int) (h0 : 0 ≤ x) (h1 : x ≤ 2147483647) : wrapInt32 x = x := by
  unfold wrapInt32
  omega

theorem wrapInt64_of_fits (x : Int) (h0 : 0 ≤ x) (h1 : x < 9223372036854775808) :
    wrapInt64 x = x := by
  unfold wrapInt64
  omega

theorem number_natCast (k : Nat) : number (k : Int) = Nat.toDigits 10 k := by
  unfold number
  rw [if_neg (by omega), Int.toNat_ofNat]

/-- The amount parser on a digit string without a decimal point. -/
theorem parse_whole (w : List Char) (hne : w ≠ []) (hd : ∀ c ∈ w, isDigit c = true)
    (hv : digitsValue w < 92233720368) :
    getAmountFromUserDecimalStr w = (digitsValue w : Int) * 100000000 := by
  unfold getAmountFromUserDecimalStr
  simp only [split_no_sep '.' w (digits_no_dot w hd), List.getD_cons_zero, List.length_singleton,
    divider_eq]
  rw [if_neg (by decide), toULongLong_digits w hne hd (by omega)]
  exact wrapInt64_of_fits _ (by omega) (by omega)

/-- The amount parser on `w.f`, both digit strings, `f` of at most 8 digits. -/
theorem parse_whole_frac (w f : List Char) (hne : w ≠ []) (hd : ∀ c ∈ w, isDigit c = true)
    (hv : digitsValue w < 92233720368) (hf : f ≠ []) (hfd : ∀ c ∈ f, isDigit c = true)
    (hlen : f.length ≤ 8) :
    getAmountFromUserDecimalStr (w ++ '.' :: f) =
      (digitsValue w : Int) * 100000000 + (digitsValue f * 10 ^ (8 - f.length) : Nat) := by
  unfold getAmountFromUserDecimalStr
  have hsplit : split '.' (w ++ '.' :: f) = [w, f] := by
    rw [split_append_sep '.' w f (digits_no_dot w hd), split_no_sep '.' f (digits_no_dot f hfd)]
  have hpad : repeated ['0'] (getNumberOfDecimalPlaces - QString.length f)
      = List.replicate (8 - f.length) '0' := by
    rw [repeated_zero_eq]
    congr 1
    simp only [getNumberOfDecimalPlaces, QString.length]
    omega
  have hpd : ∀ c ∈ f ++ List.replicate (8 - f.length) '0', isDigit c = true := by
    intro c hc
    rcases List.mem_append.1 hc with hc | hc
    · exact hfd c hc
    · rw [(List.mem_replicate.1 hc).2]; rfl
  have hval : digitsValue (f ++ List.replicate (8 - f.length) '0')
      = digitsValue f * 10 ^ (8 - f.length) := by
    rw [digitsValue_append, digitsValue_zeros, List.length_replicate, Nat.add_zero]
  have hlt : digitsValue f * 10 ^ (8 - f.length) < 100000000 := by
    have h1 := digitsValue_lt f hfd
    calc digitsValue f * 10 ^ (8 - f.length)
        < 10 ^ f.length * 10 ^ (8 - f.length) :=
          Nat.mul_lt_mul_of_pos_right h1 (Nat.pow_pos (by decide))
      _ = 10 ^ 8 := by rw [← Nat.pow_add]; congr 1; omega
      _ = 100000000 := by norm_num
  have hfne : f ++ List.replicate (8 - f.length) '0' ≠ [] := by
    intro h
    exact hf (List.append_eq_nil.1 h).1
  simp only [hsplit, List.getD_cons_zero, List.getD_cons_succ, List.length_cons,
    List.length_nil, divider_eq, hpad]
  have hw64 : digitsValue w < 2 ^ 64 := lt_trans hv (by norm_num)
  have hp64 : digitsValue (f ++ List.replicate (8 - f.length) '0') < 2 ^ 64 := by
    rw [hval]; exact lt_trans hlt (by norm_num)
  rw [toULongLong_digits w hne hd hw64, toULongLong_digits _ hfne hpd hp64, hval]
  clear hw64 hp64 hval
  generalize digitsValue f * 10 ^ (8 - f.length) = v at hlt
  rw [if_pos trivial, wrapInt64_of_fits (↑(digitsValue w) * 100000000) (by omega) (by omega)]
  exact wrapInt64_of_fits _ (by omega) (by omega)

theorem mem_dropWhile_of_not {p : Char → Bool} {c : Char} (s : List Char) (hc : c ∈ s)
    (hp : p c = false) : c ∈ s.dropWhile p := by
  induction s with
  | nil => exact absurd hc (List.not_mem_nil c)
  | cons x xs ih =>
    by_cases hx : p x = true
    · rw [List.dropWhile_cons_of_pos hx]
      rcases List.mem_cons.1 hc with e | e
      · rw [e, hx] at hp; exact absurd hp (by decide)
      · exact ih e
    · rw [List.dropWhile_cons_of_neg hx]; exact hc

theorem mem_trimmed_of_not_space {c : Char} (s : List Char) (hc : c ∈ s)
    (hp : isSpace c = false) : c ∈ trimmed s := by
  unfold trimmed
  rw [List.mem_reverse]
  apply mem_dropWhile_of_not _ _ hp
  rw [List.mem_reverse]
  exact mem_dropWhile_of_not _ hc hp

theorem mem_dropPlus_of_ne {c : Char} (s : List Char) (hc : c ∈ s) (hp : c ≠ '+') :
    c ∈ dropPlus s := by
  cases s with
  | nil => exact absurd hc (List.not_mem_nil c)
  | cons x xs =>
    simp only [dropPlus]
    split
    · rename_i hx
      rcases List.mem_cons.1 hc with e | e
      · exact absurd (e.trans hx) hp
      · exact e
    · exact hc

theorem toULongLong_unreadable (s : List Char) (h : Unreadable s) : toULongLong s = 0 := by
  rcases h with rfl | ⟨c, hc, hd, hs, hp⟩
  · rfl
  · have hmem := mem_dropPlus_of_ne _ (mem_trimmed_of_not_space s hc hs) hp
    unfold toULongLong
    simp only
    split
    · rfl
    · have hall : (dropPlus (trimmed s)).all isDigit = false := by
        rw [List.all_eq_false]
        exact ⟨c, hmem, by simp [hd]⟩
      rw [hall]
      rfl

theorem unreadable_append_zeros (f : List Char) (k : Nat) (h : Unreadable f) :
    toULongLong (f ++ List.replicate k '0') = 0 := by
  rcases h with rfl | ⟨c, hc, hd, hs, hp⟩
  · rw [List.nil_append]
    by_cases hk : k = 0
    · subst hk; rfl
    · have hz : ∀ c ∈ List.replicate k '0', isDigit c = true := by
        intro c hc
        rw [(List.mem_replicate.1 hc).2]; rfl
      rw [toULongLong_digits _ (by simp [hk]) hz (by rw [digitsValue_zeros]; decide),
        digitsValue_zeros]
  · exact toULongLong_unreadable _ (Or.inr ⟨c, List.mem_append_left _ hc, hd, hs, hp⟩)

theorem wrapInt64_zero : wrapInt64 0 = 0 := by decide

theorem wrapInt64_idem (x : Int) : wrapInt64 (wrapInt64 x) = wrapInt64 x := by
  unfold wrapInt64
  omega

end StringLemmas

/-! ## Amount formatting and parsing: the claims -/

section Amounts

theorem decimalNumeral_eq (n : Nat) : decimalNumeral n = Nat.toDigits 10 n := rfl

theorem getDecimalString_nat (n : Nat) (h : n / 100000000 ≤ 2147483647) :
    getDecimalString (n : Int) =
      if n % 100000000 = 0 then Nat.toDigits 10 (n / 100000000)
      else Nat.toDigits 10 (n / 100000000) ++ '.' ::
        (List.replicate (8 - (Nat.toDigits 10 (n % 100000000)).length) '0' ++
          Nat.toDigits 10 (n % 100000000)) := by
  have hdiv : Int.tdiv (n : Int) 100000000 = ((n / 100000000 : Nat) : Int) :=
    (Int.ofNat_tdiv n 100000000).symm
  have hmod : Int.tmod (n : Int) 100000000 = ((n % 100000000 : Nat) : Int) :=
    (Int.ofNat_tmod n 100000000).symm
  have hlt : n % 100000000 < 100000000 := Nat.mod_lt _ (by decide)
  unfold getDecimalString
  simp only [divider_eq, hdiv, hmod]
  rw [wrapInt32_of_fits _ (by omega) (by omega), wrapInt32_of_fits _ (by omega) (by omega),
    number_natCast, number_natCast]
  by_cases h0 : n % 100000000 = 0
  · rw [if_pos h0, if_neg (by omega)]
  · rw [if_neg h0, if_pos (by omega), repeated_zero_eq]
    simp only [getNumberOfDecimalPlaces, QString.length, List.append_assoc, List.singleton_append]
    have e : (8 - ((Nat.toDigits 10 (n % 100000000)).length : Int)).toNat
        = 8 - (Nat.toDigits 10 (n % 100000000)).length := by omega
    rw [e]
    rfl

theorem roundtrip_nat (n : Nat) (h : n / 100000000 ≤ 2147483647) :
    getAmountFromUserDecimalStr (getDecimalString (n : Int)) = (n : Int) := by
  have hlt : n % 100000000 < 100000000 := Nat.mod_lt _ (by decide)
  rw [getDecimalString_nat n h]
  by_cases h0 : n % 100000000 = 0
  · rw [if_pos h0, parse_whole _ (toDigits_ne_nil _) (toDigits_isDigit _)
      (by rw [toDigits_value]; omega), toDigits_value]
    omega
  · have hlen := toDigits_length_le (n % 100000000) (by omega)
    have hfd : ∀ c ∈ List.replicate (8 - (Nat.toDigits 10 (n % 100000000)).length) '0' ++
        Nat.toDigits 10 (n % 100000000), isDigit c = true := by
      intro c hc
      rcases List.mem_append.1 hc with hc | hc
      · rw [(List.mem_replicate.1 hc).2]; rfl
      · exact toDigits_isDigit _ c hc
    rw [if_neg h0, parse_whole_frac _ _ (toDigits_ne_nil _) (toDigits_isDigit _)
      (by rw [toDigits_value]; omega) (by simp [toDigits_ne_nil]) hfd
      (by simp only [List.length_append, List.length_replicate]; omega)]
    have hl8 : (List.replicate (8 - (Nat.toDigits 10 (n % 100000000)).length) '0' ++
        Nat.toDigits 10 (n % 100000000)).length = 8 := by
      simp only [List.length_append, List.length_replicate]; omega
    rw [hl8, digitsValue_append, digitsValue_zeros, toDigits_value, toDigits_value]
    push_cast
    omega

/-- C1, counterexample: the amount `2^31 * 10^8` lies in the claimed range, its
whole part does not fit the 32-bit `wholePart`, it is printed as `-2147483648`
and that text parses to `0`. -/
theorem roundtrip_fails_above_int_range :
    (0 : Int) ≤ 214748364800000000 ∧ (214748364800000000 : Int) ≤ 2 ^ 63 - 1 ∧
      getDecimalString 214748364800000000 = "-2147483648".toList ∧
      getAmountFromUserDecimalStr (getDecimalString 214748364800000000) = 0 ∧
      getAmountFromUserDecimalStr (getDecimalString 214748364800000000) ≠ 214748364800000000 := by
  decide

/-- C1 (amended): for every amount `a` with `0 ≤ a` whose whole part `a / 10^8`
fits the 32-bit `int` (`a / 10^8 ≤ 2^31 - 1`), parsing the display string gives
the amount back. -/
theorem roundtrip_when_whole_part_fits_int (a : Int) (h0 : 0 ≤ a)
    (h1 : a / 10 ^ 8 ≤ 2 ^ 31 - 1) :
    getAmountFromUserDecimalStr (getDecimalString a) = a := by
  obtain ⟨n, rfl⟩ := Int.eq_ofNat_of_zero_le h0
  exact roundtrip_nat n (by omega)

/-- C1 (amended), instance: the amount 123456789. -/
theorem roundtrip_when_whole_part_fits_int_witness :
    getAmountFromUserDecimalStr (getDecimalString 123456789) = 123456789 :=
  roundtrip_when_whole_part_fits_int 123456789 (by decide) (by decide)

/-- C2: for `0 ≤ a` with `a / 10^8 ≤ 2^31 - 1`, the display string is the
decimal numeral of `a / 10^8` alone, without a decimal point, when
`a % 10^8 = 0`; otherwise it is that numeral, a `.`, and the numeral of
`a % 10^8` padded with zeros on the left to exactly 8 digits. In particular
`0` prints as `0` and `123456789` as `1.23456789`. -/
theorem getDecimalString_format (a : Int) (h0 : 0 ≤ a) (h1 : a / 10 ^ 8 ≤ 2 ^ 31 - 1) :
    (a % 10 ^ 8 = 0 →
      getDecimalString a = decimalNumeral (a / 10 ^ 8).toNat ∧ '.' ∉ getDecimalString a) ∧
    (a % 10 ^ 8 ≠ 0 →
      getDecimalString a = decimalNumeral (a / 10 ^ 8).toNat ++ ".".toList ++
          List.leftpad 8 '0' (decimalNumeral (a % 10 ^ 8).toNat) ∧
        (List.leftpad 8 '0' (decimalNumeral (a % 10 ^ 8).toNat)).length = 8) ∧
    getDecimalString 0 = "0".toList ∧
    getDecimalString 123456789 = "1.23456789".toList := by
  obtain ⟨n, rfl⟩ := Int.eq_ofNat_of_zero_le h0
  have hn : n / 100000000 ≤ 2147483647 := by omega
  have hq : ((n : Int) / 10 ^ 8).toNat = n / 100000000 := by omega
  have hr : ((n : Int) % 10 ^ 8).toNat = n % 100000000 := by omega
  have hlen := toDigits_length_le (n % 100000000) (by
    have := Nat.mod_lt n (show 0 < 100000000 by decide); omega)
  rw [hq, hr, getDecimalString_nat n hn]
  refine ⟨fun h => ?_, fun h => ?_, by decide, by decide⟩
  · have h0 : n % 100000000 = 0 := by omega
    rw [if_pos h0]
    exact ⟨rfl, digits_no_dot _ (toDigits_isDigit _)⟩
  · have h0 : ¬ n % 100000000 = 0 := by omega
    rw [if_neg h0]
    refine ⟨?_, ?_⟩
    · simp [decimalNumeral_eq, List.leftpad]
    · simp only [List.leftpad, decimalNumeral_eq, List.length_append, List.length_replicate]
      omega

/-- C2, instance: one and a half coins print as `1.50000000`. -/
theorem getDecimalString_format_witness :
    getDecimalString 150000000 = "1.50000000".toList ∧
      getDecimalString 200000000 = "2".toList :=
  ⟨((getDecimalString_format 150000000 (by decide) (by decide)).2.1 (by decide)).1,
    ((getDecimalString_format 200000000 (by decide) (by decide)).1 (by decide)).1⟩

/-- C3: for a non-empty digit string `w` of value below `2^63 / 10^8` and a
digit string `f` of 1 to 8 digits, `w.f` parses to
`value(w) * 10^8 + value(f) * 10^(8 - length(f))`, and `w` alone, which has no
decimal point, parses to `value(w) * 10^8`. -/
theorem getAmountFromUserDecimalStr_wellFormed (w f : List Char) (hw : w ≠ [])
    (hwd : ∀ c ∈ w, isDigit c = true) (hv : digitsValue w < 2 ^ 63 / 10 ^ 8)
    (hf1 : 1 ≤ f.length) (hf8 : f.length ≤ 8) (hfd : ∀ c ∈ f, isDigit c = true) :
    getAmountFromUserDecimalStr (w ++ ".".toList ++ f) =
        (digitsValue w : Int) * 10 ^ 8 + (digitsValue f : Int) * 10 ^ (8 - f.length) ∧
      getAmountFromUserDecimalStr w = (digitsValue w : Int) * 10 ^ 8 := by
  have hv2 : digitsValue w < 92233720368 := by
    have : (2 : Nat) ^ 63 / 10 ^ 8 = 92233720368 := by norm_num
    omega
  have hfne : f ≠ [] := by
    intro h; rw [h] at hf1; simp at hf1
  refine ⟨?_, ?_⟩
  · have h := parse_whole_frac w f hw hwd hv2 hfne hfd hf8
    have e : w ++ ".".toList ++ f = w ++ '.' :: f := by simp
    rw [e, h]
    push_cast
    norm_num
  · rw [parse_whole w hw hwd hv2]
    norm_num

/-- C3, instance: `12.5` parses to 1250000000 and `12` to 1200000000. -/
theorem getAmountFromUserDecimalStr_wellFormed_witness :
    getAmountFromUserDecimalStr "12.5".toList = 1250000000 ∧
      getAmountFromUserDecimalStr "12".toList = 1200000000 :=
  getAmountFromUserDecimalStr_wellFormed "12".toList "5".toList (by decide) (by decide)
    (by decide) (by decide) (by decide) (by decide)

/-- C4, counterexample: the text `abc` is not a numeral, the parser reports
nothing and returns `0`, the very result of parsing the well-formed `0`; the
empty text and `1.x` behave alike. -/
theorem malformed_amount_parses_silently :
    (∀ c ∈ "abc".toList, isDigit c = false) ∧
      getAmountFromUserDecimalStr "abc".toList = 0 ∧
      getAmountFromUserDecimalStr "abc".toList = getAmountFromUserDecimalStr "0".toList ∧
      getAmountFromUserDecimalStr [] = getAmountFromUserDecimalStr "0".toList ∧
      getAmountFromUserDecimalStr "1.x".toList = getAmountFromUserDecimalStr "1".toList := by
  decide

/-- C4 (amended): the parser has no error outcome, it returns a number for every
text, and a whole part or fractional part that is empty or holds a character
other than a digit, white space or `+` silently counts as zero: such a text
without decimal point parses to 0, with such a whole part `w` the text `w.f`
parses to what the fractional part alone gives, and with such a fractional part
`f` it parses to what the whole part alone gives. -/
theorem getAmountFromUserDecimalStr_unreadable_is_zero (w f : List Char)
    (hw : '.' ∉ w) (hf : '.' ∉ f) :
    (Unreadable w → getAmountFromUserDecimalStr w = 0) ∧
    (Unreadable w → getAmountFromUserDecimalStr (w ++ ".".toList ++ f) =
      wrapInt64 (toULongLong (f ++ repeated ['0'] (8 - QString.length f)))) ∧
    (Unreadable f → getAmountFromUserDecimalStr (w ++ ".".toList ++ f) =
      wrapInt64 ((toULongLong w : Int) * 10 ^ 8)) := by
  have e : w ++ ".".toList ++ f = w ++ '.' :: f := by simp
  have hsplit : split '.' (w ++ '.' :: f) = [w, f] := by
    rw [split_append_sep '.' w f hw, split_no_sep '.' f hf]
  refine ⟨fun h => ?_, fun h => ?_, fun h => ?_⟩
  · unfold getAmountFromUserDecimalStr
    simp only [split_no_sep '.' w hw, List.getD_cons_zero, List.length_singleton]
    rw [if_neg (by decide), toULongLong_unreadable w h]
    decide
  · unfold getAmountFromUserDecimalStr
    simp only [e, hsplit, List.getD_cons_zero, List.getD_cons_succ, List.length_cons,
      List.length_nil, getNumberOfDecimalPlaces]
    rw [toULongLong_unreadable w h]
    simp [wrapInt64_zero]
  · unfold getAmountFromUserDecimalStr
    simp only [e, hsplit, List.getD_cons_zero, List.getD_cons_succ, List.length_cons,
      List.length_nil, getNumberOfDecimalPlaces, repeated_zero_eq, divider_eq]
    rw [unreadable_append_zeros f _ h]
    simp [wrapInt64_idem]

/-- C4 (amended), instance: `abc`, `x.5` and `7.y`. -/
theorem getAmountFromUserDecimalStr_unreadable_is_zero_witness :
    getAmountFromUserDecimalStr "abc".toList = 0 ∧
      getAmountFromUserDecimalStr "abc.5".toList = 50000000 ∧
      getAmountFromUserDecimalStr "7.y".toList = 700000000 :=
  ⟨(getAmountFromUserDecimalStr_unreadable_is_zero "abc".toList [] (by decide) (by decide)).1
      (Or.inr ⟨'a', by decide, by decide, by decide, by decide⟩),
    (getAmountFromUserDecimalStr_unreadable_is_zero "abc".toList "5".toList (by decide)
      (by decide)).2.1 (Or.inr ⟨'a', by decide, by decide, by decide, by decide⟩),
    (getAmountFromUserDecimalStr_unreadable_is_zero "7".toList "y".toList (by decide)
      (by decide)).2.2 (Or.inr ⟨'y', by decide, by decide, by decide, by decide⟩)⟩

end Amounts

/-! ## Address classification: the claims -/

section Addresses

theorem isAlphanum_eq_isAlnum (c : Char) : c.isAlphanum = isAlnum c := by
  simp only [Char.isAlphanum, Char.isAlpha, Char.isUpper, Char.isLower, Char.isDigit, ge_iff_le,
    UInt32.le_def, BitVec.le_def, Char.toNat, UInt32.toNat, isAlnum]
  have e1 : (48 : UInt32).toBitVec.toNat = 48 := rfl
  have e2 : (57 : UInt32).toBitVec.toNat = 57 := rfl
  have e3 : (65 : UInt32).toBitVec.toNat = 65 := rfl
  have e4 : (90 : UInt32).toBitVec.toNat = 90 := rfl
  have e5 : (97 : UInt32).toBitVec.toNat = 97 := rfl
  have e6 : (122 : UInt32).toBitVec.toNat = 122 := rfl
  rw [e1, e2, e3, e4, e5, e6]
  generalize decide (65 ≤ c.val.toBitVec.toNat) = a1
  generalize decide (c.val.toBitVec.toNat ≤ 90) = a2
  generalize decide (97 ≤ c.val.toBitVec.toNat) = a3
  generalize decide (c.val.toBitVec.toNat ≤ 122) = a4
  generalize decide (48 ≤ c.val.toBitVec.toNat) = a5
  generalize decide (c.val.toBitVec.toNat ≤ 57) = a6
  cases a1 <;> cases a2 <;> cases a3 <;> cases a4 <;> cases a5 <;> cases a6 <;> rfl

theorem toNat_ofNat_small (n : Nat) (h : n < 55296) : (Char.ofNat n).toNat = n := by
  have hv : n.isValidChar := Or.inl h
  simp only [Char.ofNat, dif_pos hv, Char.ofNatAux, Char.toNat, UInt32.toNat]
  rfl

theorem char_eq_of_toNat_eq {c d : Char} (h : c.toNat = d.toNat) : c = d := by
  rw [← Char.ofNat_toNat c, ← Char.ofNat_toNat d, h]

theorem toLowerChar_eq_iff (a c : Char) (ha : 97 ≤ a.toNat ∧ a.toNat ≤ 122) :
    toLowerChar c = a ↔ c = a ∨ c = a.toUpper := by
  have hup : a.toUpper = Char.ofNat (a.toNat - 32) := by
    simp only [Char.toUpper, ge_iff_le]
    rw [if_pos ha]
  have hupn : a.toUpper.toNat = a.toNat - 32 := by
    rw [hup, toNat_ofNat_small _ (by omega)]
  constructor
  · intro h
    unfold toLowerChar at h
    split at h
    · rename_i hc
      right
      apply char_eq_of_toNat_eq
      rw [hupn, ← h, toNat_ofNat_small _ (by omega)]
      omega
    · exact Or.inl h
  · rintro (rfl | rfl)
    · unfold toLowerChar
      rw [if_neg (by omega)]
    · unfold toLowerChar
      rw [if_pos (by omega)]
      apply char_eq_of_toNat_eq
      rw [toNat_ofNat_small _ (by omega), hupn]
      omega

theorem isAlnum_of_toLowerChar (a c : Char) (ha : 97 ≤ a.toNat ∧ a.toNat ≤ 122)
    (h : toLowerChar c = a) : isAlnum c = true := by
  unfold toLowerChar at h
  simp only [isAlnum, Bool.or_eq_true, Bool.and_eq_true, decide_eq_true_eq]
  split at h
  · omega
  · subst h; omega

theorem toLower_eq_iff (p k : List Char) (hp : LowerWord p) :
    toLower k = p ↔ IsCaseSpelling p k := by
  induction p generalizing k with
  | nil =>
    cases k with
    | nil => simp [toLower, IsCaseSpelling]
    | cons c cs => simp [toLower, IsCaseSpelling]
  | cons a as ih =>
    cases k with
    | nil => simp [toLower, IsCaseSpelling]
    | cons c cs =>
      have h1 := toLowerChar_eq_iff a c (hp a (by simp))
      have h2 := ih cs (fun x hx => hp x (by simp [hx]))
      simp only [toLower, IsCaseSpelling, List.map_cons, List.cons.injEq,
        List.forall₂_cons] at h2 ⊢
      rw [h1, h2]

theorem isAlnum_of_toLower (p k : List Char) (hp : LowerWord p) (h : toLower k = p) :
    ∀ c ∈ k, isAlnum c = true := by
  induction p generalizing k with
  | nil =>
    cases k with
    | nil => simp
    | cons c cs => simp [toLower] at h
  | cons a as ih =>
    cases k with
    | nil => simp
    | cons c cs =>
      simp only [toLower, List.map_cons, List.cons.injEq] at h
      intro x hx
      rcases List.mem_cons.1 hx with e | e
      · rw [e]; exact isAlnum_of_toLowerChar a c (hp a (by simp)) h.1
      · exact ih cs (fun y hy => hp y (by simp [hy])) h.2 x e

theorem exactMatch_iff (p : List Char) (n : Nat) (s : List Char) (hp : LowerWord p) :
    exactMatchLiteralAlnum p n s = true ↔
      IsCaseSpelling p (s.take p.length) ∧ s.length = p.length + n ∧
        ∀ c ∈ s, c.isAlphanum = true := by
  simp only [exactMatchLiteralAlnum, Bool.and_eq_true, beq_iff_eq, List.all_eq_true,
    isAlphanum_eq_isAlnum, ← toLower_eq_iff _ _ hp, List.length_drop]
  constructor
  · rintro ⟨⟨h1, h2⟩, h3⟩
    have hl : (s.take p.length).length = p.length := by
      rw [← h1]; simp [toLower]
    rw [List.length_take] at hl
    refine ⟨h1, by omega, ?_⟩
    intro c hc
    rw [← List.take_append_drop p.length s] at hc
    rcases List.mem_append.1 hc with hc | hc
    · exact isAlnum_of_toLower p _ hp h1 c hc
    · exact h3 c hc
  · rintro ⟨h1, h2, h3⟩
    exact ⟨⟨h1, by omega⟩, fun c hc => h3 c (List.mem_of_mem_drop hc)⟩

theorem lowerWord_t : LowerWord ['t'] := by
  unfold LowerWord; decide

theorem lowerWord_z : LowerWord ['z'] := by
  unfold LowerWord; decide

theorem lowerWord_ztestsapling : LowerWord "ztestsapling".toList := by
  unfold LowerWord; decide

theorem ztestsapling_eq :
    "ztestsapling".toList = ['z', 't', 'e', 's', 't', 's', 'a', 'p', 'l', 'i', 'n', 'g'] := rfl

theorem isValidAddress_shape (x : List Char) :
    isValidAddress x = true ↔ (∀ c ∈ x, c.isAlphanum = true) ∧ HasAddressShape x := by
  simp only [isValidAddress, Bool.or_eq_true, exactMatch_iff _ _ _ lowerWord_t,
    exactMatch_iff _ _ _ lowerWord_z, exactMatch_iff _ _ _ lowerWord_ztestsapling,
    HasAddressShape]
  have e12 : "ztestsapling".toList.length = 12 := rfl
  simp only [e12, List.length_singleton]
  tauto

theorem isValidAddress_alnum (x : List Char) (h : isValidAddress x = true) :
    x ≠ [] ∧ ∀ c ∈ x, isAlnum c = true := by
  obtain ⟨h1, h2⟩ := (isValidAddress_shape x).1 h
  refine ⟨?_, fun c hc => by rw [← isAlphanum_eq_isAlnum]; exact h1 c hc⟩
  rintro rfl
  rcases h2 with h | h | h | h <;> simp at h

theorem startsWith_append (p t : List Char) : startsWith (p ++ t) p = true := by
  induction p with
  | nil => cases t <;> rfl
  | cons a as ih => simp [startsWith, ih]

theorem isValidAddress_ztestsapling (t : List Char) (hl : t.length = 76)
    (ha : ∀ c ∈ t, c.isAlphanum = true) : isValidAddress ("ztestsapling".toList ++ t) = true := by
  rw [isValidAddress_shape]
  refine ⟨?_, Or.inr (Or.inr (Or.inr ⟨?_, ?_⟩))⟩
  · intro c hc
    rcases List.mem_append.1 hc with hc | hc
    · have hz : ∀ x ∈ "ztestsapling".toList, x.isAlphanum = true := by decide
      exact hz c hc
    · exact ha c hc
  · rw [ztestsapling_eq]
    simp [IsCaseSpelling]
  · rw [ztestsapling_eq]
    simp [hl]

/-- C5: a string is a valid address exactly when it consists of ASCII letters
and digits only and has one of the four shapes (`t` with 35 characters, `z` with
78 or with 95, `ztestsapling` with 88, the letters in either case); the test
does not read the network mode, so this holds in both modes. In particular `t`
followed by 34 letters or digits is valid and `t` followed by any other number
of characters is not. -/
theorem isValidAddress_iff (s : List Char) :
    (isValidAddress s = true ↔ (∀ c ∈ s, c.isAlphanum = true) ∧ HasAddressShape s) ∧
    (∀ r : List Char, r.length = 34 → (∀ c ∈ r, c.isAlphanum = true) →
      isValidAddress ('t' :: r) = true) ∧
    (∀ r : List Char, r.length ≠ 34 → isValidAddress ('t' :: r) = false) := by
  refine ⟨isValidAddress_shape s, ?_, ?_⟩
  · intro r hr hal
    rw [isValidAddress_shape]
    refine ⟨?_, Or.inl ⟨?_, by simp [hr]⟩⟩
    · intro c hc
      rcases List.mem_cons.1 hc with e | e
      · rw [e]; decide
      · exact hal c e
    · simp [IsCaseSpelling]
  · intro r hr
    rw [Bool.eq_false_iff]
    intro h
    rw [isValidAddress_shape] at h
    obtain ⟨-, h | h | h | h⟩ := h
    · simp at h; omega
    · have h1 := h.1
      simp [IsCaseSpelling] at h1
    · have h1 := h.1
      simp [IsCaseSpelling] at h1
    · have h1 := h.1
      rw [ztestsapling_eq] at h1
      simp [IsCaseSpelling] at h1

/-- C5, instance: the 35-character transparent address of the specification is
valid, the same text cut to 34 characters is not. -/
theorem isValidAddress_iff_witness :
    isValidAddress "t1XXXXXXXXXXXXXXXXXXXXXXXXXXXXXXXXX".toList = true ∧
      isValidAddress "t1XXXXXXXXXXXXXXXXXXXXXXXXXXXXXXXX".toList = false :=
  ⟨(isValidAddress_iff []).2.1 "1XXXXXXXXXXXXXXXXXXXXXXXXXXXXXXXXX".toList (by decide) (by decide),
    (isValidAddress_iff []).2.2 "1XXXXXXXXXXXXXXXXXXXXXXXXXXXXXXXX".toList (by decide)⟩

/-- C6, counterexample: `ztestsapling` followed by 76 letters is a valid address
for settings in mainnet mode as well, the validity test never reads the mode. -/
theorem testnet_sapling_address_valid_on_mainnet :
    (Settings.mk false false 0 0).isTestnet = false ∧
      ("ztestsapling".toList ++ List.replicate 76 'a').length = 88 ∧
      isValidAddress ("ztestsapling".toList ++ List.replicate 76 'a') = true := by
  decide

/-- C6 (amended): a string made of `ztestsapling` followed by exactly 76 letters
or digits is a valid address in both network modes; what depends on the mode is
its classification: it is a Sapling address exactly in testnet mode. -/
theorem ztestsapling_valid_and_sapling_iff_testnet (st : Settings) (t : List Char)
    (hl : t.length = 76) (ha : ∀ c ∈ t, c.isAlphanum = true) :
    isValidAddress ("ztestsapling".toList ++ t) = true ∧
      (st.isSaplingAddress ("ztestsapling".toList ++ t) = true ↔ st.isTestnet = true) := by
  have hv := isValidAddress_ztestsapling t hl ha
  refine ⟨hv, ?_⟩
  have h2 : startsWith ("ztestsapling".toList ++ t) "zs".toList = false := by
    rw [ztestsapling_eq]; rfl
  simp only [isSaplingAddress, hv, startsWith_append, h2]
  cases st.isTestnet <;> simp

/-- C6 (amended), instance: 76 letters `a`, in testnet and in mainnet mode. -/
theorem ztestsapling_valid_and_sapling_iff_testnet_witness :
    isValidAddress ("ztestsapling".toList ++ List.replicate 76 'a') = true ∧
      (Settings.mk true false 0 0).isSaplingAddress
        ("ztestsapling".toList ++ List.replicate 76 'a') = true ∧
      (Settings.mk false false 0 0).isSaplingAddress
        ("ztestsapling".toList ++ List.replicate 76 'a') ≠ true :=
  ⟨(ztestsapling_valid_and_sapling_iff_testnet (Settings.mk true false 0 0)
      (List.replicate 76 'a') (by decide) (by decide)).1,
    (ztestsapling_valid_and_sapling_iff_testnet (Settings.mk true false 0 0)
      (List.replicate 76 'a') (by decide) (by decide)).2.2 rfl,
    fun h => Bool.noConfusion ((ztestsapling_valid_and_sapling_iff_testnet
      (Settings.mk false false 0 0) (List.replicate 76 'a') (by decide) (by decide)).2.1 h)⟩

/-- C7: when the general validity check fails, the four classifiers all answer
false, whatever the network mode. -/
theorem classifiers_false_of_invalid (st : Settings) (s : List Char)
    (h : isValidAddress s = false) :
    st.isSaplingAddress s = false ∧ st.isSproutAddress s = false ∧
      st.isZAddress s = false ∧ st.isTAddress s = false := by
  simp [isSaplingAddress, isSproutAddress, isZAddress, isTAddress, h]

/-- C7, instance: the text `zs1abc` is not a valid address. -/
theorem classifiers_false_of_invalid_witness :
    (Settings.mk false false 0 0).isSaplingAddress "zs1abc".toList = false ∧
      (Settings.mk false false 0 0).isSproutAddress "zs1abc".toList = false ∧
      (Settings.mk false false 0 0).isZAddress "zs1abc".toList = false ∧
      (Settings.mk false false 0 0).isTAddress "zs1abc".toList = false :=
  classifiers_false_of_invalid (Settings.mk false false 0 0) "zs1abc".toList (by decide)

end Addresses

/-! ## Payment URIs: the claims -/

section PaymentURIs

theorem startsWith_iff (s p : List Char) : startsWith s p = true ↔ ∃ r, s = p ++ r := by
  induction p generalizing s with
  | nil => cases s <;> simp [startsWith]
  | cons a as ih =>
    cases s with
    | nil => simp [startsWith]
    | cons c cs =>
      simp only [startsWith, Bool.and_eq_true, beq_iff_eq, ih, List.cons_append,
        List.cons.injEq]
      constructor
      · rintro ⟨rfl, r, rfl⟩
        exact ⟨r, rfl, rfl⟩
      · rintro ⟨r, rfl, rfl⟩
        exact ⟨rfl, r, rfl⟩

theorem right_sub (s : List Char) (k : Nat) (hk : k ≤ s.length) :
    right s (QString.length s - (k : Int)) = s.drop k := by
  unfold right QString.length
  by_cases h0 : k = 0
  · subst h0
    simp
  · rw [if_neg (by omega)]
    congr 1
    omega

theorem right_append (p r : List Char) :
    right (p ++ r) (QString.length (p ++ r) - QString.length p) = r := by
  have h := right_sub (p ++ r) p.length (by simp)
  simp only [List.drop_left] at h
  exact h

theorem dropWhile_not_alnum_eq (c : Char) (cs : List Char) (h : isAlnum c = true) :
    (c :: cs).dropWhile (fun x => !isAlnum x) = c :: cs := by
  rw [List.dropWhile_cons_of_neg]
  simp [h]

theorem takeWhile_alnum_append (a rest : List Char) (ha : ∀ c ∈ a, isAlnum c = true)
    (hr : ∀ c ∈ rest.head?, isAlnum c = false) :
    (a ++ rest).takeWhile isAlnum = a := by
  induction a with
  | nil =>
    cases rest with
    | nil => rfl
    | cons c cs =>
      have := hr c (by simp)
      simp [List.takeWhile, this]
  | cons x xs ih =>
    have hx := ha x (by simp)
    simp only [List.cons_append, List.takeWhile_cons, hx, if_true]
    rw [ih (fun c hc => ha c (by simp [hc]))]

theorem firstAlnumRun_append (a rest : List Char) (hne : a ≠ [])
    (ha : ∀ c ∈ a, isAlnum c = true) (hr : ∀ c ∈ rest.head?, isAlnum c = false) :
    firstAlnumRun (a ++ rest) = some a := by
  cases a with
  | nil => exact absurd rfl hne
  | cons x xs =>
    unfold firstAlnumRun
    rw [List.cons_append, dropWhile_not_alnum_eq x _ (ha x (by simp))]
    simp only
    rw [← List.cons_append, takeWhile_alnum_append _ _ ha hr]

theorem parseArgs_addr (dec : QString → QString) (ans : PaymentURI) (args : List QString) :
    (parseArgs dec ans args).addr = ans.addr := by
  induction args generalizing ans with
  | nil => rfl
  | cons arg args ih =>
    simp only [parseArgs]
    split
    · rfl
    · split
      · rw [ih]
      · split
        · rw [ih]
        · rw [ih]

theorem parseArgs_error (dec : QString → QString) (ans : PaymentURI) (args : List QString)
    (h : ans.error = []) :
    (parseArgs dec ans args).error = [] ∨
      (parseArgs dec ans args).error = "No value argument was seen".toList := by
  induction args generalizing ans with
  | nil => exact Or.inl h
  | cons arg args ih =>
    simp only [parseArgs]
    split
    · exact Or.inr rfl
    · split
      · exact ih _ h
      · split
        · exact ih _ h
        · exact ih _ h

theorem firstAlnumRun_length_le (s a : List Char) (h : firstAlnumRun s = some a) :
    a.length ≤ s.length := by
  unfold firstAlnumRun at h
  split at h
  · exact absurd h (by simp)
  · rename_i c cs hd
    have h1 : ((c :: cs).takeWhile isAlnum).length ≤ (c :: cs).length :=
      (List.takeWhile_sublist _).length_le
    have h2 : (s.dropWhile (fun x => !isAlnum x)).length ≤ s.length :=
      (List.dropWhile_sublist _).length_le
    rw [hd] at h2
    simp only [Option.some.injEq] at h
    rw [← h]
    omega

theorem right_drop_one (s : List Char) (h : s.isEmpty = false) :
    right s (QString.length s - 1) = s.drop 1 := by
  have hl : 1 ≤ s.length := by
    cases s with
    | nil => simp at h
    | cons c cs => simp
  have := right_sub s 1 hl
  simpa using this

/-- The four outcomes of `parseURI`, by the test that decides each. -/
theorem parseURI_cases (dec : QString → QString) (u : List Char) :
    (startsWith u "zcash:".toList = false ∧
      parseURI dec u = { error := "Not a zcash payment URI".toList }) ∨
    (∃ rest, u = "zcash:".toList ++ rest ∧ firstAlnumRun rest = none ∧
      parseURI dec u = { error := "Couldn't find an address".toList }) ∨
    (∃ rest a, u = "zcash:".toList ++ rest ∧ firstAlnumRun rest = some a ∧
      isValidAddress a = false ∧
      parseURI dec u = { addr := a, error := "Could not understand address".toList }) ∨
    (∃ rest a, u = "zcash:".toList ++ rest ∧ firstAlnumRun rest = some a ∧
      isValidAddress a = true ∧
      parseURI dec u =
        if (rest.drop (List.length a)).isEmpty then { addr := a }
        else parseArgs dec { addr := a } (split '&' ((rest.drop (List.length a)).drop 1))) := by
  by_cases hs : startsWith u "zcash:".toList = true
  · obtain ⟨rest, rfl⟩ := (startsWith_iff _ _).1 hs
    right
    have hr := right_append "zcash:".toList rest
    cases hf : firstAlnumRun rest with
    | none =>
      left
      refine ⟨rest, rfl, hf, ?_⟩
      simp only [parseURI, hs, hr, hf]
      rfl
    | some a =>
      right
      by_cases hv : isValidAddress a = true
      · right
        refine ⟨rest, a, rfl, hf, hv, ?_⟩
        have hd : right rest (QString.length rest - QString.length a)
            = rest.drop (List.length a) :=
          right_sub rest (List.length a) (firstAlnumRun_length_le rest a hf)
        simp only [parseURI, hs, hr, hf, hv, hd]
        by_cases he : (rest.drop (List.length a)).isEmpty = true
        · rw [if_pos he]
          simp [he]
        · have he2 : (rest.drop (List.length a)).isEmpty = false := by simpa using he
          rw [if_neg he, right_drop_one _ he2]
          simp [he2]
      · left
        have hv2 : isValidAddress a = false := by simpa using hv
        refine ⟨rest, a, rfl, hf, hv2, ?_⟩
        simp only [parseURI, hs, hr, hf, hv2]
        rfl
  · left
    have hs2 : startsWith u "zcash:".toList = false := by simpa using hs
    refine ⟨hs2, ?_⟩
    simp only [parseURI, hs2]
    rfl

theorem parseURI_valid (dec : QString → QString) (A rest : List Char)
    (hv : isValidAddress A = true) (hr : ∀ c ∈ rest.head?, isAlnum c = false) :
    parseURI dec ("zcash:".toList ++ (A ++ rest)) =
      if rest.isEmpty then { addr := A }
      else parseArgs dec { addr := A } (split '&' (rest.drop 1)) := by
  obtain ⟨hne, hal⟩ := isValidAddress_alnum A hv
  have hf := firstAlnumRun_append A rest hne hal hr
  rcases parseURI_cases dec ("zcash:".toList ++ (A ++ rest)) with
    ⟨h, -⟩ | ⟨r, hu, h, -⟩ | ⟨r, a, hu, h, h2, -⟩ | ⟨r, a, hu, h, -, h3⟩
  · rw [startsWith_append] at h
    exact absurd h (by decide)
  · rw [← List.append_cancel_left hu, hf] at h
    exact absurd h (by simp)
  · rw [← List.append_cancel_left hu, hf, Option.some.injEq] at h
    rw [← h, hv] at h2
    exact absurd h2 (by decide)
  · have hr2 := List.append_cancel_left hu
    rw [← hr2, hf, Option.some.injEq] at h
    rw [h3, ← hr2, ← h, List.drop_left]

theorem split_length (c : Char) (s : List Char) : (split c s).length = s.count c + 1 := by
  induction s with
  | nil => rfl
  | cons x xs ih =>
    by_cases hx : x = c
    · subst hx
      simp [split, ih]
    · have hne : (x == c) = false := by simpa using hx
      simp only [split, if_neg hx, List.count_cons, hne]
      cases h : split c xs with
      | nil => rw [h] at ih; simp at ih
      | cons q qs => rw [h] at ih; simpa using ih

theorem split_key_value (k v : List Char) (hk : '=' ∉ k) (hv : '=' ∉ v) :
    split '=' (k ++ '=' :: v) = [k, v] := by
  rw [split_append_sep '=' k v hk, split_no_sep '=' v hv]

theorem parseArgs_amt (dec : QString → QString) (ans : PaymentURI) (k v : List Char)
    (args : List QString) (hk : '=' ∉ k) (hv : '=' ∉ v)
    (h : toLower k = "amt".toList ∨ toLower k = "amount".toList) :
    parseArgs dec ans ((k ++ '=' :: v) :: args) = parseArgs dec { ans with amt := v } args := by
  rw [parseArgs]
  simp only [split_key_value k v hk hv, List.length_cons, List.length_nil, List.getD_cons_zero,
    List.getD_cons_succ]
  rw [if_neg (by decide), if_pos h]

theorem parseArgs_memo (dec : QString → QString) (ans : PaymentURI) (k v : List Char)
    (args : List QString) (hk : '=' ∉ k) (hv : '=' ∉ v)
    (h : toLower k = "memo".toList ∨ toLower k = "message".toList ∨ toLower k = "msg".toList) :
    parseArgs dec ans ((k ++ '=' :: v) :: args) =
      parseArgs dec { ans with memo := dec v } args := by
  have hn : ¬ (toLower k = "amt".toList ∨ toLower k = "amount".toList) := by
    rcases h with h | h | h <;> rw [h] <;> decide
  rw [parseArgs]
  simp only [split_key_value k v hk hv, List.length_cons, List.length_nil, List.getD_cons_zero,
    List.getD_cons_succ]
  rw [if_neg (by decide), if_neg hn, if_pos h]

theorem parseArgs_other (dec : QString → QString) (ans : PaymentURI) (k v : List Char)
    (args : List QString) (hk : '=' ∉ k) (hv : '=' ∉ v)
    (h1 : ¬ (toLower k = "amt".toList ∨ toLower k = "amount".toList))
    (h2 : ¬ (toLower k = "memo".toList ∨ toLower k = "message".toList ∨
      toLower k = "msg".toList)) :
    parseArgs dec ans ((k ++ '=' :: v) :: args) = parseArgs dec ans args := by
  rw [parseArgs]
  simp only [split_key_value k v hk hv, List.length_cons, List.length_nil, List.getD_cons_zero,
    List.getD_cons_succ]
  rw [if_neg (by decide), if_neg h1, if_neg h2]

theorem parseArgs_bad (dec : QString → QString) (ans : PaymentURI) (seg : List Char)
    (args : List QString) (h : seg.count '=' ≠ 1) :
    parseArgs dec ans (seg :: args) =
      { ans with error := "No value argument was seen".toList } := by
  rw [parseArgs]
  rw [if_pos (by rw [split_length]; omega)]

theorem spelling_facts (t k : List Char) (ht : LowerWord t) (h : IsCaseSpelling t k) :
    toLower k = t ∧ '=' ∉ k ∧ '&' ∉ k := by
  have h1 := (toLower_eq_iff t k ht).2 h
  have h2 := isAlnum_of_toLower t k ht h1
  refine ⟨h1, fun hc => ?_, fun hc => ?_⟩
  · exact absurd (h2 _ hc) (by decide)
  · exact absurd (h2 _ hc) (by decide)

theorem lowerWord_keys : LowerWord "amt".toList ∧ LowerWord "amount".toList ∧
    LowerWord "memo".toList ∧ LowerWord "message".toList ∧ LowerWord "msg".toList := by
  unfold LowerWord; decide

theorem parseURI_two_args (dec : QString → QString) (A ka km v m : List Char)
    (hA : isValidAddress A = true)
    (hka : IsCaseSpelling "amt".toList ka ∨ IsCaseSpelling "amount".toList ka)
    (hkm : IsCaseSpelling "memo".toList km ∨ IsCaseSpelling "message".toList km ∨
      IsCaseSpelling "msg".toList km)
    (hv : '&' ∉ v ∧ '=' ∉ v) (hm : '&' ∉ m ∧ '=' ∉ m) :
    parseURI dec ("zcash:".toList ++ A ++ "?".toList ++ ka ++ "=".toList ++ v ++ "&".toList ++
        km ++ "=".toList ++ m) =
      { addr := A, amt := v, memo := dec m, error := [] } := by
  obtain ⟨l1, l2, l3, l4, l5⟩ := lowerWord_keys
  have ha : (toLower ka = "amt".toList ∨ toLower ka = "amount".toList) ∧ '=' ∉ ka ∧ '&' ∉ ka := by
    rcases hka with h | h
    · exact ⟨Or.inl (spelling_facts _ _ l1 h).1, (spelling_facts _ _ l1 h).2⟩
    · exact ⟨Or.inr (spelling_facts _ _ l2 h).1, (spelling_facts _ _ l2 h).2⟩
  have hb : (toLower km = "memo".toList ∨ toLower km = "message".toList ∨
      toLower km = "msg".toList) ∧ '=' ∉ km ∧ '&' ∉ km := by
    rcases hkm with h | h | h
    · exact ⟨Or.inl (spelling_facts _ _ l3 h).1, (spelling_facts _ _ l3 h).2⟩
    · exact ⟨Or.inr (Or.inl (spelling_facts _ _ l4 h).1), (spelling_facts _ _ l4 h).2⟩
    · exact ⟨Or.inr (Or.inr (spelling_facts _ _ l5 h).1), (spelling_facts _ _ l5 h).2⟩
  have e : "zcash:".toList ++ A ++ "?".toList ++ ka ++ "=".toList ++ v ++ "&".toList ++
        km ++ "=".toList ++ m =
      "zcash:".toList ++ (A ++ '?' :: ((ka ++ '=' :: v) ++ '&' :: (km ++ '=' :: m))) := by
    have q1 : "?".toList = ['?'] := rfl
    have q2 : "=".toList = ['='] := rfl
    have q3 : "&".toList = ['&'] := rfl
    rw [q1, q2, q3]
    simp only [List.append_assoc, List.singleton_append, List.cons_append, List.nil_append]
  have h1 : '&' ∉ ka ++ '=' :: v := by
    intro h
    rcases List.mem_append.1 h with h | h
    · exact ha.2.2 h
    · rcases List.mem_cons.1 h with h | h
      · exact absurd h (by decide)
      · exact hv.1 h
  have h2 : '&' ∉ km ++ '=' :: m := by
    intro h
    rcases List.mem_append.1 h with h | h
    · exact hb.2.2 h
    · rcases List.mem_cons.1 h with h | h
      · exact absurd h (by decide)
      · exact hm.1 h
  rw [e, parseURI_valid dec A _ hA (by intro c hc; simp at hc; rw [← hc]; decide)]
  rw [if_neg (by simp), List.drop_one, List.tail_cons, split_append_sep '&' _ _ h1,
    split_no_sep '&' _ h2, parseArgs_amt dec _ ka v _ ha.2.1 hv.2 ha.1,
    parseArgs_memo dec _ km m _ hb.2.1 hm.2 hb.1]
  rfl

/-- C8: for a valid address `A`, a key `ka` spelling `amt` or `amount` in any
case, a key `km` spelling `memo`, `message` or `msg` in any case and values `v`,
`m` without `&` and `=`, the URI `zcash:A?ka=v&km=m` parses to the address `A`,
the amount `v`, the percent-decoding `dec m` of `m` as memo and no error. With a
decoder that leaves text without `%` unchanged the memo is `m` itself, and the
URI `zcash:t1XXXXXXXXXXXXXXXXXXXXXXXXXXXXXXXXX?amt=1.5&memo=hi` gives the amount
`1.5` and the memo `hi`. -/
theorem parseURI_amount_and_memo (dec : QString → QString) (A ka km v m : List Char)
    (hA : isValidAddress A = true)
    (hka : IsCaseSpelling "amt".toList ka ∨ IsCaseSpelling "amount".toList ka)
    (hkm : IsCaseSpelling "memo".toList km ∨ IsCaseSpelling "message".toList km ∨
      IsCaseSpelling "msg".toList km)
    (hv : '&' ∉ v ∧ '=' ∉ v) (hm : '&' ∉ m ∧ '=' ∉ m) :
    parseURI dec ("zcash:".toList ++ A ++ "?".toList ++ ka ++ "=".toList ++ v ++ "&".toList ++
        km ++ "=".toList ++ m) =
      { addr := A, amt := v, memo := dec m, error := [] } ∧
    ((∀ x : List Char, '%' ∉ x → dec x = x) → '%' ∉ m →
      parseURI dec ("zcash:".toList ++ A ++ "?".toList ++ ka ++ "=".toList ++ v ++
        "&".toList ++ km ++ "=".toList ++ m) =
      { addr := A, amt := v, memo := m, error := [] }) ∧
    ((∀ x : List Char, '%' ∉ x → dec x = x) →
      parseURI dec "zcash:t1XXXXXXXXXXXXXXXXXXXXXXXXXXXXXXXXX?amt=1.5&memo=hi".toList =
        { addr := "t1XXXXXXXXXXXXXXXXXXXXXXXXXXXXXXXXX".toList, amt := "1.5".toList,
          memo := "hi".toList, error := [] }) := by
  refine ⟨parseURI_two_args dec A ka km v m hA hka hkm hv hm, fun hd hp => ?_, fun hd => ?_⟩
  · rw [parseURI_two_args dec A ka km v m hA hka hkm hv hm, hd m hp]
  · have h := parseURI_two_args dec "t1XXXXXXXXXXXXXXXXXXXXXXXXXXXXXXXXX".toList "amt".toList
      "memo".toList "1.5".toList "hi".toList (by decide)
      (Or.inl (by unfold IsCaseSpelling; simp [String.toList]))
      (Or.inl (by unfold IsCaseSpelling; simp [String.toList]))
      (by decide) (by decide)
    rw [hd "hi".toList (by decide)] at h
    exact h

/-- C8, instance: the keys `AMT` and `Memo` with a decoder that changes nothing. -/
theorem parseURI_amount_and_memo_witness :
    parseURI id "zcash:t1XXXXXXXXXXXXXXXXXXXXXXXXXXXXXXXXX?AMT=1.5&Memo=hi".toList =
      { addr := "t1XXXXXXXXXXXXXXXXXXXXXXXXXXXXXXXXX".toList, amt := "1.5".toList,
        memo := "hi".toList, error := [] } :=
  (parseURI_amount_and_memo id "t1XXXXXXXXXXXXXXXXXXXXXXXXXXXXXXXXX".toList "AMT".toList
    "Memo".toList "1.5".toList "hi".toList (by decide)
    (Or.inl (by unfold IsCaseSpelling; simp [String.toList]))
    (Or.inl (by unfold IsCaseSpelling; simp [String.toList]))
    (by decide) (by decide)).1

theorem dropWhile_head_not {p : Char → Bool} (s : List Char) (c : Char) (cs : List Char)
    (h : s.dropWhile p = c :: cs) : p c = false := by
  induction s with
  | nil => simp at h
  | cons x xs ih =>
    by_cases hx : p x = true
    · rw [List.dropWhile_cons_of_pos hx] at h
      exact ih h
    · rw [List.dropWhile_cons_of_neg hx, List.cons.injEq] at h
      rw [← h.1]
      simpa using hx

theorem firstAlnumRun_ne_nil (s a : List Char) (h : firstAlnumRun s = some a) : a ≠ [] := by
  unfold firstAlnumRun at h
  split at h
  · exact absurd h (by simp)
  · rename_i c cs hd
    have hc : isAlnum c = true := by
      have := dropWhile_head_not s c cs hd
      simpa using this
    simp only [Option.some.injEq] at h
    rw [← h, List.takeWhile_cons, if_pos hc]
    exact List.cons_ne_nil _ _

/-- C9, counterexample: `zcash:abc` is rejected with an error and the rejected
text `abc` stays in `addr`; a query with a segment without `=` is rejected with
an error while `addr` and `amt` stay populated. -/
theorem parseURI_error_with_populated_fields :
    (parseURI id "zcash:abc".toList).error = "Could not understand address".toList ∧
      (parseURI id "zcash:abc".toList).addr = "abc".toList ∧
      (parseURI id "zcash:t1XXXXXXXXXXXXXXXXXXXXXXXXXXXXXXXXX?amt=1.5&memo".toList).error =
        "No value argument was seen".toList ∧
      (parseURI id "zcash:t1XXXXXXXXXXXXXXXXXXXXXXXXXXXXXXXXX?amt=1.5&memo".toList).addr =
        "t1XXXXXXXXXXXXXXXXXXXXXXXXXXXXXXXXX".toList ∧
      (parseURI id "zcash:t1XXXXXXXXXXXXXXXXXXXXXXXXXXXXXXXXX?amt=1.5&memo".toList).amt =
        "1.5".toList := by
  decide

/-- C9 (amended): whenever the returned error is empty, `addr` is non-empty and
a valid address. The error is empty or one of four texts; the fields parsed
before a failure are kept: `addr`, `amt` and `memo` are all empty for the errors
`Not a zcash payment URI` and `Couldn't find an address`, with
`Could not understand address` the field `addr` holds the rejected, invalid text
and `amt`, `memo` are empty, and with `No value argument was seen` the field
`addr` holds the valid address. -/
theorem parseURI_outcomes (dec : QString → QString) (u : List Char) :
    ((parseURI dec u).error = [] →
      (parseURI dec u).addr ≠ [] ∧ isValidAddress (parseURI dec u).addr = true) ∧
    ((parseURI dec u).error = [] ∨
      (parseURI dec u).error = "Not a zcash payment URI".toList ∨
      (parseURI dec u).error = "Couldn't find an address".toList ∨
      (parseURI dec u).error = "Could not understand address".toList ∨
      (parseURI dec u).error = "No value argument was seen".toList) ∧
    ((parseURI dec u).error = "Not a zcash payment URI".toList ∨
        (parseURI dec u).error = "Couldn't find an address".toList →
      (parseURI dec u).addr = [] ∧ (parseURI dec u).amt = [] ∧ (parseURI dec u).memo = []) ∧
    ((parseURI dec u).error = "Could not understand address".toList →
      (parseURI dec u).addr ≠ [] ∧ isValidAddress (parseURI dec u).addr = false ∧
        (parseURI dec u).amt = [] ∧ (parseURI dec u).memo = []) ∧
    ((parseURI dec u).error = "No value argument was seen".toList →
      isValidAddress (parseURI dec u).addr = true) := by
  rcases parseURI_cases dec u with
    ⟨-, h⟩ | ⟨r, -, -, h⟩ | ⟨r, a, -, hf, hv, h⟩ | ⟨r, a, -, hf, hv, h⟩
  · rw [h]
    refine ⟨fun e => absurd e (by decide), Or.inr (Or.inl rfl), fun _ => ⟨rfl, rfl, rfl⟩,
      fun e => absurd e (by decide), fun e => absurd e (by decide)⟩
  · rw [h]
    refine ⟨fun e => absurd e (by decide), Or.inr (Or.inr (Or.inl rfl)),
      fun _ => ⟨rfl, rfl, rfl⟩, fun e => absurd e (by decide), fun e => absurd e (by decide)⟩
  · rw [h]
    dsimp only
    refine ⟨fun e => absurd e (by decide), Or.inr (Or.inr (Or.inr (Or.inl rfl))),
      fun e => ?_, fun _ => ⟨firstAlnumRun_ne_nil r a hf, hv, rfl, rfl⟩,
      fun e => absurd e (by decide)⟩
    rcases e with e | e <;> exact absurd e (by decide)
  · have hne := firstAlnumRun_ne_nil r a hf
    have haddr : (parseURI dec u).addr = a := by
      rw [h]; split
      · rfl
      · exact parseArgs_addr dec _ _
    have herr : (parseURI dec u).error = [] ∨
        (parseURI dec u).error = "No value argument was seen".toList := by
      rw [h]; split
      · exact Or.inl rfl
      · exact parseArgs_error dec _ _ rfl
    rw [haddr]
    rcases herr with e | e
    · rw [e]
      refine ⟨fun _ => ⟨hne, hv⟩, Or.inl rfl, fun e => ?_, fun e => absurd e (by decide),
        fun _ => hv⟩
      rcases e with e | e <;> exact absurd e (by decide)
    · rw [e]
      refine ⟨fun _ => ⟨hne, hv⟩, Or.inr (Or.inr (Or.inr (Or.inr rfl))), fun e => ?_,
        fun e => absurd e (by decide), fun _ => hv⟩
      rcases e with e | e <;> exact absurd e (by decide)

/-- C9 (amended), instance: a URI that parses without error. -/
theorem parseURI_outcomes_witness :
    (parseURI id "zcash:t1XXXXXXXXXXXXXXXXXXXXXXXXXXXXXXXXX?amt=1.5".toList).addr ≠ [] ∧
      isValidAddress
        (parseURI id "zcash:t1XXXXXXXXXXXXXXXXXXXXXXXXXXXXXXXXX?amt=1.5".toList).addr = true :=
  (parseURI_outcomes id "zcash:t1XXXXXXXXXXXXXXXXXXXXXXXXXXXXXXXXX?amt=1.5".toList).1 (by decide)

/-- C10, the code at the failing inputs: a URI whose address is followed by `#`
instead of `?`, and a URI whose address does not come first after the scheme,
both parse with an empty error. -/
theorem parseURI_accepts_undocumented_format :
    parseURI id "zcash:t1XXXXXXXXXXXXXXXXXXXXXXXXXXXXXXXXX#amt=1.5".toList =
        { addr := "t1XXXXXXXXXXXXXXXXXXXXXXXXXXXXXXXXX".toList, amt := "1.5".toList,
          memo := [], error := [] } ∧
      parseURI id "zcash:?t1XXXXXXXXXXXXXXXXXXXXXXXXXXXXXXXXX=".toList =
        { addr := "t1XXXXXXXXXXXXXXXXXXXXXXXXXXXXXXXXX".toList, amt := [], memo := [],
          error := [] } := by
  decide

/-- C11: a text that does not begin with the exact scheme `zcash:` yields a
non-empty error and empty `addr`, `amt` and `memo`. -/
theorem parseURI_missing_scheme (dec : QString → QString) (u : List Char)
    (h : ¬ "zcash:".toList <+: u) :
    (parseURI dec u).error ≠ [] ∧ (parseURI dec u).addr = [] ∧ (parseURI dec u).amt = [] ∧
      (parseURI dec u).memo = [] := by
  have hs : startsWith u "zcash:".toList = false := by
    rw [Bool.eq_false_iff]
    intro hs
    obtain ⟨r, hr⟩ := (startsWith_iff _ _).1 hs
    exact h ⟨r, hr.symm⟩
  rcases parseURI_cases dec u with
    ⟨-, h⟩ | ⟨r, hu, -, -⟩ | ⟨r, a, hu, -, -, -⟩ | ⟨r, a, hu, -, -, -⟩
  · rw [h]
    exact ⟨by decide, rfl, rfl, rfl⟩
  · exact absurd ⟨r, hu.symm⟩ h
  · exact absurd ⟨r, hu.symm⟩ h
  · exact absurd ⟨r, hu.symm⟩ h

/-- C11, instance: a `bitcoin:` URI, and the scheme in capitals. -/
theorem parseURI_missing_scheme_witness :
    (parseURI id "bitcoin:t1XXXXXXXXXXXXXXXXXXXXXXXXXXXXXXXXX".toList).error ≠ [] ∧
      (parseURI id "bitcoin:t1XXXXXXXXXXXXXXXXXXXXXXXXXXXXXXXXX".toList).addr = [] ∧
      (parseURI id "bitcoin:t1XXXXXXXXXXXXXXXXXXXXXXXXXXXXXXXXX".toList).amt = [] ∧
      (parseURI id "bitcoin:t1XXXXXXXXXXXXXXXXXXXXXXXXXXXXXXXXX".toList).memo = [] :=
  parseURI_missing_scheme id "bitcoin:t1XXXXXXXXXXXXXXXXXXXXXXXXXXXXXXXXX".toList (by decide)

theorem intercalate_two (x y : List Char) (r : List (List Char)) :
    List.intercalate ['&'] (x :: y :: r) = x ++ '&' :: List.intercalate ['&'] (y :: r) := by
  simp [List.intercalate, List.intersperse]

theorem intercalate_one (x : List Char) : List.intercalate ['&'] [x] = x := by
  simp [List.intercalate, List.intersperse]

theorem split_intercalate (segs : List (List Char)) (hs : segs ≠ [])
    (hamp : ∀ seg ∈ segs, '&' ∉ seg) : split '&' (List.intercalate ['&'] segs) = segs := by
  induction segs with
  | nil => exact absurd rfl hs
  | cons x xs ih =>
    cases xs with
    | nil => rw [intercalate_one, split_no_sep '&' x (hamp x (by simp))]
    | cons y r =>
      rw [intercalate_two, split_append_sep '&' x _ (hamp x (by simp)),
        ih (by simp) (fun seg hseg => hamp seg (by simp [hseg]))]

theorem parseArgs_error_of_bad (dec : QString → QString) (args : List QString)
    (ans : PaymentURI) (h : ∃ seg ∈ args, seg.count '=' ≠ 1) :
    (parseArgs dec ans args).error = "No value argument was seen".toList := by
  induction args generalizing ans with
  | nil => simp at h
  | cons arg args ih =>
    by_cases hb : arg.count '=' ≠ 1
    · rw [parseArgs_bad dec ans arg args hb]
    · have hrest : ∃ seg ∈ args, seg.count '=' ≠ 1 := by
        obtain ⟨seg, hm, hc⟩ := h
        rcases List.mem_cons.1 hm with e | e
        · rw [e] at hc; exact absurd hc hb
        · exact ⟨seg, e, hc⟩
      rw [parseArgs]
      split
      · rfl
      · split
        · exact ih _ hrest
        · split
          · exact ih _ hrest
          · exact ih _ hrest

theorem parseArgs_insert (dec : QString → QString) (segs1 segs2 : List QString)
    (k v : List Char) (ans : PaymentURI) (hk : '=' ∉ k) (hv : '=' ∉ v)
    (h1 : ¬ (toLower k = "amt".toList ∨ toLower k = "amount".toList))
    (h2 : ¬ (toLower k = "memo".toList ∨ toLower k = "message".toList ∨
      toLower k = "msg".toList)) :
    parseArgs dec ans (segs1 ++ (k ++ '=' :: v) :: segs2) = parseArgs dec ans (segs1 ++ segs2) := by
  induction segs1 generalizing ans with
  | nil => exact parseArgs_other dec ans k v segs2 hk hv h1 h2
  | cons arg args ih =>
    rw [List.cons_append, List.cons_append, parseArgs, parseArgs]
    split
    · rfl
    · split
      · exact ih _
      · split
        · exact ih _
        · exact ih _

theorem toLower_eq_map (k : List Char) : toLower k = k.map Char.toLower := rfl

/-- C12: for a valid address `A` and a query `q` whose `&`-separated segments
are `segs`, if one of the segments does not contain exactly one `=` (an empty
segment, one without `=`, one with two or more), the URI `zcash:A?q` parses
with a non-empty error. -/
theorem parseURI_segment_without_value (dec : QString → QString) (A q : List Char)
    (segs : List (List Char)) (hA : isValidAddress A = true)
    (hq : q = "&".toList.intercalate segs) (hs : segs ≠ [])
    (hamp : ∀ seg ∈ segs, '&' ∉ seg) (hbad : ∃ seg ∈ segs, seg.count '=' ≠ 1) :
    (parseURI dec ("zcash:".toList ++ A ++ "?".toList ++ q)).error ≠ [] := by
  have e : "zcash:".toList ++ A ++ "?".toList ++ q = "zcash:".toList ++ (A ++ '?' :: q) := by
    have q1 : "?".toList = ['?'] := rfl
    rw [q1]
    simp only [List.append_assoc, List.singleton_append]
  have q3 : "&".toList = ['&'] := rfl
  rw [e, parseURI_valid dec A _ hA (by intro c hc; simp at hc; rw [← hc]; decide),
    if_neg (by simp), List.drop_one, List.tail_cons, hq, q3, split_intercalate segs hs hamp,
    parseArgs_error_of_bad dec segs _ hbad]
  decide

/-- C12, instance: the query `amt=1.5&memo`, whose second segment has no `=`. -/
theorem parseURI_segment_without_value_witness :
    (parseURI id "zcash:t1XXXXXXXXXXXXXXXXXXXXXXXXXXXXXXXXX?amt=1.5&memo".toList).error ≠ [] :=
  parseURI_segment_without_value id "t1XXXXXXXXXXXXXXXXXXXXXXXXXXXXXXXXX".toList
    "amt=1.5&memo".toList ["amt=1.5".toList, "memo".toList] (by decide) (by decide) (by decide)
    (by decide) ⟨"memo".toList, by decide, by decide⟩

theorem parseURI_uriOf (dec : QString → QString) (A : List Char) (segs : List (List Char))
    (hA : isValidAddress A = true) (hamp : ∀ seg ∈ segs, '&' ∉ seg) :
    parseURI dec (uriOf A segs) = parseArgs dec { addr := A } segs := by
  unfold uriOf
  by_cases hs : segs = []
  · subst hs
    rw [if_pos rfl, List.append_assoc, parseURI_valid dec A [] hA (by simp)]
    rfl
  · have q1 : "?".toList = ['?'] := rfl
    have q3 : "&".toList = ['&'] := rfl
    rw [if_neg hs, List.append_assoc, q1, q3, List.singleton_append,
      parseURI_valid dec A _ hA (by intro c hc; simp at hc; rw [← hc]; decide),
      if_neg (by simp), List.drop_one, List.tail_cons, split_intercalate segs hs hamp]

/-- C13: for a valid address `A`, query segments `segs1`, `segs2` and an extra
segment `k=v` whose key, lower-cased, is none of `amt`, `amount`, `memo`,
`message`, `msg`, the URI with `k=v` inserted between `segs1` and `segs2` parses
to the same result (address, amount, memo and error) as the URI without it.
The segments need not even be of the form `key=value`. -/
theorem parseURI_unknown_key_ignored (dec : QString → QString) (A k v : List Char)
    (segs1 segs2 : List (List Char)) (hA : isValidAddress A = true)
    (hamp : ∀ seg ∈ segs1 ++ segs2, '&' ∉ seg) (hk : '=' ∉ k ∧ '&' ∉ k)
    (hv : '=' ∉ v ∧ '&' ∉ v)
    (hkey : k.map Char.toLower ∉ ["amt".toList, "amount".toList, "memo".toList,
      "message".toList, "msg".toList]) :
    parseURI dec (uriOf A (segs1 ++ (k ++ "=".toList ++ v) :: segs2)) =
      parseURI dec (uriOf A (segs1 ++ segs2)) := by
  have q2 : k ++ "=".toList ++ v = k ++ '=' :: v := by
    have : "=".toList = ['='] := rfl
    rw [this]; simp
  have hkv : '&' ∉ k ++ '=' :: v := by
    intro h
    rcases List.mem_append.1 h with h | h
    · exact hk.2 h
    · rcases List.mem_cons.1 h with h | h
      · exact absurd h (by decide)
      · exact hv.2 h
  have hamp2 : ∀ seg ∈ segs1 ++ (k ++ '=' :: v) :: segs2, '&' ∉ seg := by
    intro seg hseg
    rcases List.mem_append.1 hseg with h | h
    · exact hamp seg (List.mem_append_left _ h)
    · rcases List.mem_cons.1 h with h | h
      · rw [h]; exact hkv
      · exact hamp seg (List.mem_append_right _ h)
  rw [← toLower_eq_map] at hkey
  simp only [List.mem_cons, List.mem_singleton, List.not_mem_nil, or_false, not_or] at hkey
  rw [q2, parseURI_uriOf dec A _ hA hamp2, parseURI_uriOf dec A _ hA hamp]
  exact parseArgs_insert dec segs1 segs2 k v _ hk.1 hv.1 (by tauto) (by tauto)

/-- C13, instance: the segment `label=x` inserted between `amt=1.5` and `memo=hi`. -/
theorem parseURI_unknown_key_ignored_witness :
    parseURI id "zcash:t1XXXXXXXXXXXXXXXXXXXXXXXXXXXXXXXXX?amt=1.5&label=x&memo=hi".toList =
      parseURI id "zcash:t1XXXXXXXXXXXXXXXXXXXXXXXXXXXXXXXXX?amt=1.5&memo=hi".toList :=
  parseURI_unknown_key_ignored id "t1XXXXXXXXXXXXXXXXXXXXXXXXXXXXXXXXX".toList "label".toList
    "x".toList ["amt=1.5".toList] ["memo=hi".toList] (by decide) (by decide) (by decide)
    (by decide) (by decide)

end PaymentURIs

/-! ## The settings facade: the claims -/

section Facade

theorem dropWhile_space_nil_iff (v : List Char) :
    v.dropWhile isSpace = [] ↔ ∀ c ∈ v, isSpace c = true := by
  induction v with
  | nil => simp
  | cons x xs ih =>
    by_cases hx : isSpace x = true
    · rw [List.dropWhile_cons_of_pos hx, ih]
      simp [hx]
    · rw [List.dropWhile_cons_of_neg hx]
      simp [hx]

theorem trimmed_isEmpty_iff (v : List Char) :
    (trimmed v).isEmpty = true ↔ ∀ c ∈ v, isSpace c = true := by
  unfold trimmed
  rw [List.isEmpty_iff, List.reverse_eq_nil_iff, dropWhile_space_nil_iff]
  constructor
  · intro h
    rw [← dropWhile_space_nil_iff]
    cases hd : v.dropWhile isSpace with
    | nil => rfl
    | cons c cs =>
      have h1 := dropWhile_head_not v c cs hd
      have h2 := h c (by rw [hd]; simp)
      rw [h1] at h2
      exact absurd h2 (by decide)
  · intro h c hc
    rw [(dropWhile_space_nil_iff v).2 h] at hc
    simp at hc

/-- C14, counterexample: with the default URL itself stored in the entry,
`getSettings` returns the default server although the entry is set and is not
blank. -/
theorem getSettings_default_when_stored_default :
    (getSettings (some getDefaultServer)).server = getDefaultServer ∧
      getDefaultServer = "https://lightd-main.zecwallet.co:443/".toList ∧
      (some getDefaultServer : Option QString) ≠ none ∧
      (trimmed getDefaultServer).isEmpty = false := by
  decide

/-- C14 (amended): `getSettings` returns the default server
`https://lightd-main.zecwallet.co:443/` if the entry is unset or its value is
blank (white space only, that is empty after trimming), and otherwise returns
the stored value unchanged, untrimmed; so the result is the default server if
and only if the entry is unset, blank, or holds the default URL itself. -/
theorem getSettings_server (stored : Option QString) :
    getDefaultServer = "https://lightd-main.zecwallet.co:443/".toList ∧
    (stored = none → (getSettings stored).server = getDefaultServer) ∧
    (∀ v, stored = some v → (∀ c ∈ v, isSpace c = true) →
      (getSettings stored).server = getDefaultServer) ∧
    (∀ v, stored = some v → ¬ (∀ c ∈ v, isSpace c = true) → (getSettings stored).server = v) ∧
    ((getSettings stored).server = getDefaultServer ↔
      stored = none ∨ ∃ v, stored = some v ∧ ((∀ c ∈ v, isSpace c = true) ∨ v = getDefaultServer)) := by
  have hblank : ∀ v, (∀ c ∈ v, isSpace c = true) →
      (getSettings (some v)).server = getDefaultServer := by
    intro v hv
    simp only [getSettings, Option.getD_some]
    rw [if_pos ((trimmed_isEmpty_iff v).2 hv)]
  have hset : ∀ v, ¬ (∀ c ∈ v, isSpace c = true) → (getSettings (some v)).server = v := by
    intro v hv
    simp only [getSettings, Option.getD_some]
    rw [if_neg (fun h => hv ((trimmed_isEmpty_iff v).1 h))]
  refine ⟨rfl, ?_, ?_, ?_, ?_⟩
  · rintro rfl; rfl
  · rintro v rfl hv; exact hblank v hv
  · rintro v rfl hv; exact hset v hv
  · cases stored with
    | none => exact ⟨fun _ => Or.inl rfl, fun _ => rfl⟩
    | some v =>
      by_cases hv : ∀ c ∈ v, isSpace c = true
      · exact ⟨fun _ => Or.inr ⟨v, rfl, Or.inl hv⟩, fun _ => hblank v hv⟩
      · rw [hset v hv]
        constructor
        · intro h; exact Or.inr ⟨v, rfl, Or.inr h⟩
        · rintro (h | ⟨w, hw, h | h⟩)
          · exact absurd h (by simp)
          · rw [Option.some.injEq] at hw; rw [hw] at hv; exact absurd h hv
          · rw [Option.some.injEq] at hw; rw [hw]; exact h

/-- C14 (amended), instance: an unset entry, a blank entry and a stored URL
with white space around it. -/
theorem getSettings_server_witness :
    (getSettings none).server = getDefaultServer ∧
      (getSettings (some "  ".toList)).server = getDefaultServer ∧
      (getSettings (some " http://x ".toList)).server = " http://x ".toList :=
  ⟨(getSettings_server none).2.1 rfl,
    (getSettings_server (some "  ".toList)).2.2.1 "  ".toList rfl (by decide),
    (getSettings_server (some " http://x ".toList)).2.2.2.1 " http://x ".toList rfl
      (by decide)⟩

/-- C15: after `setBlockNumber(n)`, Sapling is active exactly when `n > 280000`
in testnet mode and when `n > 419200` in mainnet mode; so, within one mode, once
it is active for `n` it is active for every larger block number. -/
theorem isSaplingActive_threshold (st : Settings) (n : Int) :
    ((st.setBlockNumber n).isSaplingActive = true ↔
      (st.isTestnet = true ∧ n > 280000) ∨ (st.isTestnet = false ∧ n > 419200)) ∧
    (st.setBlockNumber n).isTestnet = st.isTestnet ∧
    (∀ m : Int, n ≤ m → (st.setBlockNumber n).isSaplingActive = true →
      (st.setBlockNumber m).isSaplingActive = true) := by
  have key : ∀ k : Int, (st.setBlockNumber k).isSaplingActive = true ↔
      (st.isTestnet = true ∧ k > 280000) ∨ (st.isTestnet = false ∧ k > 419200) := by
    intro k
    simp only [isSaplingActive, setBlockNumber, getBlockNumber, isTestnet]
    cases st._isTestnet <;> simp
  refine ⟨key n, rfl, fun m hm h => ?_⟩
  rw [key] at h ⊢
  rcases h with ⟨h1, h2⟩ | ⟨h1, h2⟩
  · exact Or.inl ⟨h1, by omega⟩
  · exact Or.inr ⟨h1, by omega⟩

/-- C15, instance: block 419201 on mainnet and every later block. -/
theorem isSaplingActive_threshold_witness :
    ((Settings.mk false false 0 0).setBlockNumber 500000).isSaplingActive = true ∧
      ((Settings.mk true false 0 0).setBlockNumber 280000).isSaplingActive = false :=
  ⟨(isSaplingActive_threshold (Settings.mk false false 0 0) 419201).2.2 500000 (by decide)
      (by decide), by decide⟩

end Facade

/-! ## Behaviour read from the code: the claims -/

section Behaviour

/-- C16: for every amount `a` within the coin supply, `0 ≤ a ≤ 2100000000000000`
base units, and more generally whenever `0 ≤ a` and `a / 10^8 ≤ 2^31 - 1`, parsing
the display string of `a` gives `a` back. -/
theorem roundtrip_within_supply (a : Int) (h0 : 0 ≤ a)
    (h : a ≤ 2100000000000000 ∨ a / 10 ^ 8 ≤ 2 ^ 31 - 1) :
    getAmountFromUserDecimalStr (getDecimalString a) = a := by
  obtain ⟨n, rfl⟩ := Int.eq_ofNat_of_zero_le h0
  exact roundtrip_nat n (by omega)

/-- C16, instance: the whole supply of 21 million coins, and one base unit. -/
theorem roundtrip_within_supply_witness :
    getAmountFromUserDecimalStr (getDecimalString 2100000000000000) = 2100000000000000 ∧
      getAmountFromUserDecimalStr (getDecimalString 1) = 1 :=
  ⟨roundtrip_within_supply 2100000000000000 (by decide) (Or.inl (by decide)),
    roundtrip_within_supply 1 (by decide) (Or.inr (by decide))⟩

/-- C17, the code at the failing input: the text `0.999999999`, with 9 digits
after the point, gets no padding and no truncation, its fractional digits are
added as they are and the result is 999999999 base units, not below one whole
coin `(0 + 1) * 10^8`. -/
theorem long_fraction_reaches_whole_coins :
    getAmountFromUserDecimalStr "0.999999999".toList = 999999999 ∧
      digitsValue "0".toList = 0 ∧
      ¬ (getAmountFromUserDecimalStr "0.999999999".toList < (0 + 1) * 10 ^ 8) ∧
      getAmountFromUserDecimalStr "0.123456789".toList = 123456789 := by
  decide

/-- C18, the code at the failing input: `T` followed by 34 letters is a valid
address, and neither `isZAddress` nor `isTAddress` accepts it, in either mode:
the validity test ignores the case of the first letter, the classifiers compare
it with the lower-case letter. -/
theorem valid_address_not_classified :
    isValidAddress "T1XXXXXXXXXXXXXXXXXXXXXXXXXXXXXXXXX".toList = true ∧
      (Settings.mk false false 0 0).isZAddress "T1XXXXXXXXXXXXXXXXXXXXXXXXXXXXXXXXX".toList = false ∧
      (Settings.mk false false 0 0).isTAddress "T1XXXXXXXXXXXXXXXXXXXXXXXXXXXXXXXXX".toList = false ∧
      (Settings.mk true false 0 0).isZAddress "T1XXXXXXXXXXXXXXXXXXXXXXXXXXXXXXXXX".toList = false ∧
      (Settings.mk true false 0 0).isTAddress "T1XXXXXXXXXXXXXXXXXXXXXXXXXXXXXXXXX".toList = false := by
  decide

/-- C19: in every network mode, no string is both a Sapling and a Sprout
address, a string is a Z address exactly when it is a Sapling or a Sprout
address, and no string is both a Z and a T address. -/
theorem classifiers_partition (st : Settings) (s : List Char) :
    ¬ (st.isSaplingAddress s = true ∧ st.isSproutAddress s = true) ∧
      st.isZAddress s = (st.isSaplingAddress s || st.isSproutAddress s) ∧
      ¬ (st.isZAddress s = true ∧ st.isTAddress s = true) := by
  have hz : "z".toList = ['z'] := rfl
  have ht : "t".toList = ['t'] := rfl
  have hzs : "zs".toList = ['z', 's'] := rfl
  cases s with
  | nil =>
    have hv : isValidAddress [] = false := by decide
    simp [isSaplingAddress, isSproutAddress, isZAddress, isTAddress, hv]
  | cons c cs =>
    simp only [isSaplingAddress, isSproutAddress, isZAddress, isTAddress, hz, ht, hzs,
      ztestsapling_eq, startsWith]
    generalize startsWith cs ['t', 'e', 's', 't', 's', 'a', 'p', 'l', 'i', 'n', 'g'] = b1
    generalize startsWith cs ['s'] = b2
    generalize isValidAddress (c :: cs) = v
    generalize st.isTestnet = m
    have hc : ¬ (c = 'z' ∧ c = 't') := by
      rintro ⟨rfl, h⟩
      exact absurd h (by decide)
    by_cases h1 : c = 'z'
    · subst h1
      cases v <;> cases m <;> cases b1 <;> cases b2 <;> simp
    · have e1 : (c == 'z') = false := by simpa using h1
      rw [e1]
      cases v <;> cases m <;> cases b1 <;> cases b2 <;> simp

/-- C20: in each network mode the donation address is a valid address and a
Sapling address for settings in that same mode. -/
theorem getDonationAddr_valid_sapling (st : Settings) :
    isValidAddress st.getDonationAddr = true ∧ st.isSaplingAddress st.getDonationAddr = true := by
  have h1 : isValidAddress
      "ztestsapling1wn6889vznyu42wzmkakl2effhllhpe4azhu696edg2x6me4kfsnmqwpglaxzs7tmqsq7kudemp5".toList
      = true := by decide
  have h2 : isValidAddress
      "zs1gv64eu0v2wx7raxqxlmj354y9ycznwaau9kduljzczxztvs4qcl00kn2sjxtejvrxnkucw5xx9u".toList
      = true := by decide
  have h3 : startsWith
      "ztestsapling1wn6889vznyu42wzmkakl2effhllhpe4azhu696edg2x6me4kfsnmqwpglaxzs7tmqsq7kudemp5".toList
      "ztestsapling".toList = true := by decide
  have h4 : startsWith
      "zs1gv64eu0v2wx7raxqxlmj354y9ycznwaau9kduljzczxztvs4qcl00kn2sjxtejvrxnkucw5xx9u".toList
      "zs".toList = true := by decide
  have key : ∀ (x : Settings) (a : QString), isValidAddress a = true →
      ((x.isTestnet = true ∧ startsWith a "ztestsapling".toList = true) ∨
        (x.isTestnet = false ∧ startsWith a "zs".toList = true)) →
      x.isSaplingAddress a = true := by
    intro x a hv h
    unfold isSaplingAddress
    rw [hv]
    rcases h with ⟨hm, h⟩ | ⟨hm, h⟩ <;> rw [hm, h] <;> rfl
  cases hm : st.isTestnet
  · have e : st.getDonationAddr =
        "zs1gv64eu0v2wx7raxqxlmj354y9ycznwaau9kduljzczxztvs4qcl00kn2sjxtejvrxnkucw5xx9u".toList := by
      unfold getDonationAddr; rw [hm]; rfl
    rw [e]
    exact ⟨h2, key st _ h2 (Or.inr ⟨hm, h4⟩)⟩
  · have e : st.getDonationAddr =
        "ztestsapling1wn6889vznyu42wzmkakl2effhllhpe4azhu696edg2x6me4kfsnmqwpglaxzs7tmqsq7kudemp5".toList := by
      unfold getDonationAddr; rw [hm]; rfl
    rw [e]
    exact ⟨h1, key st _ h1 (Or.inl ⟨hm, h3⟩)⟩

end Behaviour

end SilentDragonLite
